import Mathlib

/-!
Verification development for the Battleship repository (calebdame/Battleship).

The repository contains two near-duplicate variants:
  src/BayesianSampling/Battleship.py   (namespace Bayes below)
  src/StatisticsSampling/Battleship.py (namespace Stats below)

Cells are modelled as pairs of integers, placements as finite sets of
cells, mirroring the Python tuples and sets.  Randomized choices are
modelled by explicit choice oracles (functions from a step counter to a
natural number index); wall-clock timeouts are modelled by explicit fuel.
Python operations that can raise at runtime are modelled in the Except
monad, with the error raised exactly where Python would raise.
-/

/-- A board cell: the Python coordinate tuple (row, col). -/
abbrev Cell := Int × Int

/-- A ship placement: a Python set of cells. -/
abbrev Placement := Finset Cell

/-- Vertical run of length L anchored at row i, column j: the Python set
comprehension with cells (i+t, j) for t below L. -/
def vertRun (L i j : Nat) : Placement :=
  (Finset.range L).image (fun t => (((i + t : Nat) : Int), ((j : Nat) : Int)))

/-- Horizontal run: the Python set comprehension with cells (j, i+t) for t
below L (row j, columns i..i+L-1). -/
def horizRun (L i j : Nat) : Placement :=
  (Finset.range L).image (fun t => (((j : Nat) : Int), ((i + t : Nat) : Int)))

/-- A total order on cells, standing in for the (unspecified but
deterministic) Python set iteration order wherever the code iterates over
a set of cells. -/
def cellLE (a b : Cell) : Prop := a.1 < b.1 ∨ (a.1 = b.1 ∧ a.2 ≤ b.2)

instance : DecidableRel cellLE := fun a b => by unfold cellLE; infer_instance

instance : IsTrans Cell cellLE :=
  ⟨by
    intro a b c hab hbc
    rcases hab with h | ⟨h1, h2⟩ <;> rcases hbc with h' | ⟨h1', h2'⟩ <;>
      unfold cellLE <;> omega⟩

instance : IsAntisymm Cell cellLE :=
  ⟨by
    intro a b hab hba
    rcases a with ⟨a1, a2⟩; rcases b with ⟨b1, b2⟩
    rcases hab with h | ⟨h1, h2⟩ <;> rcases hba with h' | ⟨h1', h2'⟩ <;>
      simp_all <;> omega⟩

instance : IsTotal Cell cellLE :=
  ⟨by intro a b; unfold cellLE; omega⟩

/-- Deterministic enumeration of a finite set of cells: the insertion
sort along cellLE of any representative list, well defined because sorted
permutations agree. -/
def cellList (s : Finset Cell) : List Cell :=
  Quotient.liftOn s.val (fun l => List.insertionSort cellLE l)
    (fun l₁ l₂ h =>
      List.eq_of_perm_of_sorted
        (((List.perm_insertionSort cellLE l₁).trans h).trans
          (List.perm_insertionSort cellLE l₂).symm)
        (List.sorted_insertionSort cellLE l₁) (List.sorted_insertionSort cellLE l₂))

deriving instance DecidableEq for Except

/-- Result of one attempt of the conditional board sampler.  In Python a
successful attempt returns the list of covered cells, a failed greedy
phase returns the empty set (the failure signal), and an attempt that
falls through the repair phase loops again (modelled as retry). -/
inductive SelResult
  | success (b : Finset Cell)
  | failEmpty
  | retry
deriving DecidableEq

/-- True when an Except-computation finished without a Python exception. -/
def exceptOk {ε α : Type} : Except ε α → Bool
  | Except.ok _ => true
  | Except.error _ => false

/-- The raised Python error of a computation, when there is one. -/
def errOf {α : Type} : Except String α → Option String
  | Except.error e => some e
  | Except.ok _ => none

namespace Bayes

/-- Candidate-list entries in the BayesianSampling variant.  The Python
lists usually hold placements (sets of cells), but the sunk-ship branch of
updateOrientations stores list(location), whose elements are bare
coordinate tuples; both shapes are represented here. -/
inductive CandEntry
  | cell (c : Cell)
  | place (p : Placement)
deriving DecidableEq

/-- Static game data of the Bayesian variant: board dimension, ship
lengths, and the ground-truth boats (self.boats, one named placement per
ship).  Ship names (single letters in Python) are modelled as the
naturals 0, 1, 2, ... in the same order. -/
structure Game where
  dim : Nat
  ships : List Nat
  boats : List (Nat × Placement)

def Game.numShips (g : Game) : Nat := g.ships.length

/-- self.shipLengths as a function of the ship name. -/
def Game.shipLen (g : Game) (k : Nat) : Nat := g.ships.getD k 0

/-- self.names, in order. -/
def Game.names (g : Game) : List Nat := List.range g.ships.length

/-- generateComponentLayouts for one ship of length L: orientations1
(vertical runs, row anchor sweep then column) followed by orientations2
(horizontal runs).  Python range(dim - L + 1) is empty when L exceeds
dim, which dim + 1 - L reproduces in Nat arithmetic. -/
def catalog (dim L : Nat) : List Placement :=
  ((List.range (dim + 1 - L)).flatMap (fun i => (List.range dim).map (fun j => vertRun L i j)))
    ++ ((List.range (dim + 1 - L)).flatMap (fun i => (List.range dim).map (fun j => horizRun L i j)))

/-- The ground-truth board: the union of all boat placements
(the final_set returned by randomBoard). -/
def boardSet (g : Game) : Finset Cell :=
  g.boats.foldr (fun b acc => b.2 ∪ acc) ∅

/-- The true placement of a ship, as dict(self.boats)[name].  Ship names
in boats are distinct, so the first match is the dictionary entry. -/
def trueP (g : Game) (k : Nat) : Placement :=
  ((g.boats.find? (fun b => b.1 == k)).map Prod.snd).getD ∅

/-- Mutable per-game state of BattleshipPlayer: evidence sets, sunk
flags, conditional candidate lists with their cached lengths, the cached
sample pool of the previous turn, the last probed cell and the stored
ship order. -/
structure St where
  hits : Finset Cell
  misses : Finset Cell
  hitsSunk : Finset Cell
  sunk : Nat → Bool
  cond : Nat → List CandEntry
  condNum : Nat → Nat
  lastTurnBoards : List (Finset Cell)
  nextInx : Cell
  order : List Nat

/-- Stable insertion of a (length, name) pair into a lexicographically
sorted list, used to model the Python sorted builtin. -/
def insertPair (a : Nat × Nat) : List (Nat × Nat) → List (Nat × Nat)
  | [] => [a]
  | b :: bs =>
    if a.1 < b.1 ∨ (a.1 = b.1 ∧ a.2 ≤ b.2) then a :: b :: bs else b :: insertPair a bs

def sortPairs : List (Nat × Nat) → List (Nat × Nat)
  | [] => []
  | a :: as => insertPair a (sortPairs as)

/-- The initial ship order: names sorted by ship length (sorted(zip(ships, names))). -/
def initOrder (g : Game) : List Nat :=
  (sortPairs (g.ships.zip (List.range g.ships.length))).map Prod.snd

/-- Stable insertion by key value, modelling the stable Python sorted with
a key function. -/
def insertByVal (f : Nat → Nat) (a : Nat) : List Nat → List Nat
  | [] => [a]
  | b :: bs => if f a < f b then a :: b :: bs else b :: insertByVal f a bs

def sortNames (f : Nat → Nat) : List Nat → List Nat
  | [] => []
  | a :: as => insertByVal f a (sortNames f as)

/-- The state built by BattleshipPlayer.init: empty evidence, conditional
candidate lists equal to the full catalog, nextInx = (-1, -1). -/
def initSt (g : Game) : St :=
  { hits := ∅
    misses := ∅
    hitsSunk := ∅
    sunk := fun _ => false
    cond := fun k => (catalog g.dim (g.shipLen k)).map CandEntry.place
    condNum := fun k => (catalog g.dim (g.shipLen k)).length
    lastTurnBoards := []
    nextInx := (-1, -1)
    order := initOrder g }

/-- BattleshipPlayer.guess: records the probed cell as nextInx and adds it
to hits when it lies on the ground-truth board, to misses otherwise. -/
def guessF (g : Game) (s : St) (c : Cell) : St :=
  if c ∈ boardSet g then { s with nextInx := c, hits := insert c s.hits }
  else { s with nextInx := c, misses := insert c s.misses }

/-- One iteration of the sink-detection loop of updateOrientations: when a
boat's true placement is a subset of hits the boat is marked sunk, its
cells join hitsSunk, its conditional candidate list is replaced by
list(location) - the list of the placement's cells, not the singleton
list of the placement - and its cached length is set to 1. -/
def sinkStep (s : St) (b : Nat × Placement) : St :=
  if b.2 ⊆ s.hits then
    { s with
      hitsSunk := s.hitsSunk ∪ b.2
      sunk := Function.update s.sunk b.1 true
      cond := Function.update s.cond b.1 ((cellList b.2).map CandEntry.cell)
      condNum := Function.update s.condNum b.1 1 }
  else s

def sinkPhase (g : Game) (s : St) : St := g.boats.foldl sinkStep s

/-- The candidate-pruning list comprehension of updateOrientations,
keeping placements disjoint from misses and from hitsSunk.  On a bare
coordinate tuple (a sunk-ship entry) Python evaluates
misses.isdisjoint(config) to True - the tuple contributes integers, the
misses hold pairs - and then config.isdisjoint raises AttributeError,
which the error case models. -/
def pruneList (misses hitsSunk : Finset Cell) : List CandEntry → Except String (List CandEntry)
  | [] => Except.ok []
  | CandEntry.cell _ :: _ =>
    Except.error "AttributeError: tuple object has no isdisjoint attribute"
  | CandEntry.place p :: rest =>
    (pruneList misses hitsSunk rest).map
      (fun tail =>
        if Disjoint misses p ∧ Disjoint p hitsSunk then CandEntry.place p :: tail else tail)

/-- The pruning loop over ship names, skipped for sunk ships. -/
def pruneNames (s : St) : List Nat → Except String St
  | [] => Except.ok s
  | k :: rest =>
    if s.sunk k then pruneNames s rest
    else
      match pruneList s.misses s.hitsSunk (s.cond k) with
      | Except.error e => Except.error e
      | Except.ok l =>
        pruneNames
          { s with
            cond := Function.update s.cond k l
            condNum := Function.update s.condNum k l.length } rest

/-- Whether a candidate entry covers a cell, as evaluated by the Python
membership tests in the unique-owner loop.  A placement entry covers the
cells it contains.  A bare tuple entry never covers any cell: the union
set().union over tuples holds integer coordinates, and membership of a
pair in a 2-tuple of integers is likewise false. -/
def entryCovers (h : Cell) (e : CandEntry) : Bool :=
  match e with
  | CandEntry.place p => decide (h ∈ p)
  | CandEntry.cell _ => false

/-- The ships whose current candidate list covers the given hit cell (the
temp list of the unique-owner loop), in dictionary insertion order. -/
def owners (g : Game) (s : St) (h : Cell) : List Nat :=
  g.names.filter (fun k => (s.cond k).any (entryCovers h))

/-- One step of the unique-owner loop of updateOrientations: when exactly
one ship covers the hit, that ship's candidate list is restricted to the
entries covering the hit. -/
def uniqueOwnerStep (g : Game) (s : St) (h : Cell) : St :=
  match owners g s h with
  | [k] =>
    { s with
      cond := Function.update s.cond k ((s.cond k).filter (entryCovers h))
      condNum := Function.update s.condNum k ((s.cond k).filter (entryCovers h)).length }
  | _ => s

/-- The unique-owner loop, one pass over the hit cells.  Python iterates
the hits set in its unspecified set order; the Finset toList order stands
in for it. -/
def propagatePhase (g : Game) (s : St) : St :=
  (cellList s.hits).foldl (uniqueOwnerStep g) s

/-- BattleshipPlayer.updateOrientations: sink detection, candidate
pruning, one unique-owner pass, then recomputation of self.order by
ascending candidate-list size.  (The Python local sunkNum is computed but
never used in this variant.) -/
def updateOrientations (g : Game) (s : St) : Except String St :=
  match pruneNames (sinkPhase g s) g.names with
  | Except.error e => Except.error e
  | Except.ok s2 =>
    let s3 := propagatePhase g s2
    Except.ok { s3 with order := sortNames s3.condNum g.names }

/-- The state after a refresh call; when the refresh raises, the Python
process dies and the state is left as it was. -/
def afterRefresh (g : Game) (s : St) : St :=
  match updateOrientations g s with
  | Except.ok t => t
  | Except.error _ => s

/-- Reading a candidate entry as a set in the sampler comprehensions.  A
bare tuple entry makes the isdisjoint attribute access raise. -/
def entrySet : CandEntry → Except String Placement
  | CandEntry.place p => Except.ok p
  | CandEntry.cell _ => Except.error "AttributeError: tuple object has no isdisjoint attribute"

def entrySets : List CandEntry → Except String (List Placement)
  | [] => Except.ok []
  | e :: rest =>
    match entrySet e with
    | Except.error err => Except.error err
    | Except.ok p => (entrySets rest).map (fun l => p :: l)

/-- The greedy phase of the Bayesian randomSelection: walk the ships in
order, keep the candidates disjoint from the cells committed so far,
abort the attempt (Except.ok none, the Python return of the empty set)
when none remain, otherwise commit one chosen by the oracle ch.  The
accumulator collects the what_where entries in insertion order and final
carries the committed union, started from mustHappen by the caller. -/
def greedy (s : St) (ch : Nat → Nat) :
    List Nat → Finset Cell → List (Nat × Placement) → Nat →
    Except String (Option (List (Nat × Placement) × Finset Cell × Nat))
  | [], final, ww, k => Except.ok (some (ww.reverse, final, k))
  | i :: rest, final, ww, k =>
    match entrySets (s.cond i) with
    | Except.error e => Except.error e
    | Except.ok cands =>
      let alts := cands.filter (fun p => Disjoint p final)
      if alts.isEmpty then Except.ok none
      else
        let p := alts.getD (ch k % alts.length) ∅
        greedy s ch rest (final ∪ p) ((i, p) :: ww) (k + 1)

/-- The union of the what_where values whose key differs from the given
key (the temp set of the repair phase). -/
def unionOthers (ww : List (Option Nat × Finset Cell)) (key : Option Nat) : Finset Cell :=
  ((ww.filter (fun q => q.1 ≠ key)).map Prod.snd).foldr (fun a b => a ∪ b) ∅

/-- The union of all what_where values. -/
def unionAll (ww : List (Option Nat × Finset Cell)) : Finset Cell :=
  (ww.map Prod.snd).foldr (fun a b => a ∪ b) ∅

/-- The repair-loop body for one what_where entry of the Bayesian
randomSelection.  The entries hold the ships in insertion order followed
by the sentinel other entry carrying mustHappen; a swap is accepted when
it is disjoint from every other entry and strictly increases the covered
hit count, and a swap completing the hit coverage returns the final set
immediately (Sum.inr); otherwise the possibly updated entries, union and
draw counter continue the pass (Sum.inl). -/
def repairStep (g : Game) (s : St) (ch : Nat → Nat) (idx : Nat)
    (ww : List (Option Nat × Finset Cell)) (final : Finset Cell) (k : Nat) :
    Except String (Sum (List (Option Nat × Finset Cell) × Finset Cell × Nat) (Finset Cell)) :=
  let entry := ww.getD idx (none, ∅)
  let needed := s.hits \ final
  let num := (entry.2 ∩ s.hits).card
  match entry.1 with
  | none => Except.ok (Sum.inl (ww, final, k))
  | some name =>
    if num < g.shipLen name then
      match entrySets (s.cond name) with
      | Except.error e => Except.error e
      | Except.ok cands =>
        let temp := unionOthers ww (some name)
        let alts := cands.filter (fun p => Disjoint p temp ∧ num < (needed ∩ p).card)
        if alts.isEmpty then Except.ok (Sum.inl (ww, final, k))
        else
          let p := alts.getD (ch k % alts.length) ∅
          let ww2 := ww.map (fun q => if q.1 = some name then (q.1, p) else q)
          let final2 := unionAll ww2
          if s.hits ⊆ final2 then Except.ok (Sum.inr final2)
          else Except.ok (Sum.inl (ww2, final2, k + 1))
    else Except.ok (Sum.inl (ww, final, k))

/-- One traversal of the what_where items in the repair phase. -/
def repairPass (g : Game) (s : St) (ch : Nat → Nat) :
    List Nat → List (Option Nat × Finset Cell) → Finset Cell → Nat →
    Except String (Sum (List (Option Nat × Finset Cell) × Finset Cell × Nat) (Finset Cell))
  | [], ww, final, k => Except.ok (Sum.inl (ww, final, k))
  | idx :: rest, ww, final, k =>
    match repairStep g s ch idx ww final k with
    | Except.error e => Except.error e
    | Except.ok (Sum.inr b) => Except.ok (Sum.inr b)
    | Except.ok (Sum.inl (ww2, final2, k2)) => repairPass g s ch rest ww2 final2 k2

/-- The repair phase: up to three passes over the what_where entries. -/
def repairRounds (g : Game) (s : St) (ch : Nat → Nat) :
    Nat → List (Option Nat × Finset Cell) → Finset Cell → Nat → Except String SelResult
  | 0, _, _, _ => Except.ok SelResult.retry
  | n + 1, ww, final, k =>
    match repairPass g s ch (List.range ww.length) ww final k with
    | Except.error e => Except.error e
    | Except.ok (Sum.inr b) => Except.ok (SelResult.success b)
    | Except.ok (Sum.inl (ww2, final2, k2)) => repairRounds g s ch n ww2 final2 k2

/-- One iteration of the outer while-loop of the Bayesian
randomSelection: greedy placement from mustHappen, immediate success when
the union covers the hits, otherwise the bounded repair phase; a
fall-through reshuffles the order and retries. -/
def attemptOnce (g : Game) (s : St) (order : List Nat) (mustHappen : Finset Cell)
    (ch : Nat → Nat) : Except String SelResult :=
  match greedy s ch order mustHappen [] 0 with
  | Except.error e => Except.error e
  | Except.ok none => Except.ok SelResult.failEmpty
  | Except.ok (some (ww, final, k)) =>
    if s.hits ⊆ final then Except.ok (SelResult.success final)
    else repairRounds g s ch 3 (ww.map (fun q => (some q.1, q.2)) ++ [(none, mustHappen)]) final k

/-- The mustHappen set built by randomConditionalBoard: the committed
cells of the sunk ships, read off the ground-truth boats dictionary. -/
def mustHappenOf (g : Game) (s : St) : Finset Cell :=
  ((g.names.filter (fun k => s.sunk k)).map (trueP g)).foldr (fun a b => a ∪ b) ∅

/-- The order filtering of randomConditionalBoard: sunk ships leave the
incoming order. -/
def orderOf (order : List Nat) (s : St) : List Nat :=
  order.filter (fun k => ¬ s.sunk k)

/-- The seed pool of buildAggBoard: when the last probed cell was a hit,
the cached previous-turn boards containing it; when it was a miss, the
cached boards not containing it; otherwise the empty initial pool.  The
two membership tests run in sequence, the second overriding the first. -/
def seedPool (lastTurnBoards : List (Finset Cell)) (hits misses : Finset Cell)
    (nextInx : Cell) : List (Finset Cell) :=
  let l1 := if nextInx ∈ hits then lastTurnBoards.filter (fun b => nextInx ∈ b) else []
  if nextInx ∈ misses then lastTurnBoards.filter (fun b => nextInx ∉ b) else l1

/-- numpy randint on the range below n, with the drawn value supplied by
the oracle value v; an empty range raises ValueError. -/
def randintE (v n : Nat) : Except String Nat :=
  if 0 < n then Except.ok (v % n)
  else Except.error "ValueError: low is greater than or equal to high"

/-- The inner while-loop of randomBoard for one ship: draw random catalog
indices until the drawn placement is disjoint from the cells already
placed.  The Python loop has no exit besides success; fuel bounds the
modelled number of rejected draws, with the out-of-fuel outcome returned
as Except.ok none.  An empty catalog makes the first randint raise. -/
def drawLoop (cat : List Placement) (ch : Nat → Nat) (final : Finset Cell) :
    Nat → Nat → Except String (Option (Placement × Nat))
  | k, 0 =>
    match randintE (ch k) cat.length with
    | Except.error e => Except.error e
    | Except.ok idx =>
      if Disjoint (cat.getD idx ∅) final then Except.ok (some (cat.getD idx ∅, k + 1))
      else Except.ok none
  | k, fuel + 1 =>
    match randintE (ch k) cat.length with
    | Except.error e => Except.error e
    | Except.ok idx =>
      if Disjoint (cat.getD idx ∅) final then Except.ok (some (cat.getD idx ∅, k + 1))
      else drawLoop cat ch final (k + 1) fuel

/-- randomBoard of the Bayesian variant: ships are placed in a random
permutation order, each drawn repeatedly from its full catalog until
disjoint from the cells already placed. -/
def randomBoardGo (dim : Nat) (shipLen : Nat → Nat) (ch : Nat → Nat) (fuel : Nat) :
    List Nat → Finset Cell → List (Nat × Placement) → Nat →
    Except String (Option (List (Nat × Placement) × Finset Cell))
  | [], final, acc, _ => Except.ok (some (acc.reverse, final))
  | name :: rest, final, acc, k =>
    match drawLoop (catalog dim (shipLen name)) ch final k fuel with
    | Except.error e => Except.error e
    | Except.ok none => Except.ok none
    | Except.ok (some (p, k2)) =>
      randomBoardGo dim shipLen ch fuel rest (final ∪ p) ((name, p) :: acc) k2

end Bayes

namespace Stats

/-- Static game data of the Statistics variant. -/
structure Game where
  dim : Nat
  ships : List Nat
  boats : List (Nat × Placement)

def Game.numShips (g : Game) : Nat := g.ships.length

def Game.shipLen (g : Game) (k : Nat) : Nat := g.ships.getD k 0

def Game.names (g : Game) : List Nat := List.range g.ships.length

/-- generateComponentLayouts for the Statistics variant: per anchor (i, j)
the vertical and the horizontal run are appended pairwise. -/
def catalog (dim L : Nat) : List Placement :=
  (List.range (dim + 1 - L)).flatMap
    (fun i => (List.range dim).flatMap (fun j => [vertRun L i j, horizRun L i j]))

def boardSet (g : Game) : Finset Cell :=
  g.boats.foldr (fun b acc => b.2 ∪ acc) ∅

def trueP (g : Game) (k : Nat) : Placement :=
  ((g.boats.find? (fun b => b.1 == k)).map Prod.snd).getD ∅

/-- Mutable state of BattleshipEnv. -/
structure St where
  hits : Finset Cell
  misses : Finset Cell
  hitsSunk : Finset Cell
  sunk : Nat → Bool
  cond : Nat → List Placement
  condNum : Nat → Nat

def initSt (g : Game) : St :=
  { hits := ∅
    misses := ∅
    hitsSunk := ∅
    sunk := fun _ => false
    cond := fun k => catalog g.dim (g.shipLen k)
    condNum := fun k => (catalog g.dim (g.shipLen k)).length }

/-- BattleshipEnv.guess: adds the probed cell to hits when it lies on the
ground-truth board, to misses otherwise; nothing else changes. -/
def guessF (g : Game) (s : St) (c : Cell) : St :=
  if c ∈ boardSet g then { s with hits := s.hits ∪ {c} }
  else { s with misses := s.misses ∪ {c} }

/-- Sink detection of the Statistics updateOrientations: the length test
len(location.union(hits)) == len(hits) holds exactly when the location is
a subset of hits; the candidate list collapses to the singleton list
holding the placement. -/
def sinkStep (s : St) (b : Nat × Placement) : St :=
  if (b.2 ∪ s.hits).card = s.hits.card then
    { s with
      hitsSunk := s.hitsSunk ∪ b.2
      sunk := Function.update s.sunk b.1 true
      cond := Function.update s.cond b.1 [b.2]
      condNum := Function.update s.condNum b.1 1 }
  else s

def sinkPhase (g : Game) (s : St) : St := g.boats.foldl sinkStep s

/-- The pruning predicate of the Statistics updateOrientations, written
with the length arithmetic of the source: a placement is kept when
len(misses.union(config)) == len(misses) + L and
len(config.union(hitsSunk)) == L + sunkNum. -/
def keepConfig (misses hitsSunk : Finset Cell) (L sunkNum : Nat) (p : Placement) : Bool :=
  decide ((misses ∪ p).card = misses.card + L) && decide ((p ∪ hitsSunk).card = L + sunkNum)

/-- The pruning loop over ship names (Python iterates set(names); each
name is processed independently, so name order stands in for the set
order), skipped for sunk ships. -/
def pruneNames (g : Game) (sunkNum : Nat) (s : St) : List Nat → St
  | [] => s
  | k :: rest =>
    if s.sunk k then pruneNames g sunkNum s rest
    else
      pruneNames g sunkNum
        { s with
          cond := Function.update s.cond k
            ((s.cond k).filter (keepConfig s.misses s.hitsSunk (g.shipLen k) sunkNum))
          condNum := Function.update s.condNum k
            ((s.cond k).filter (keepConfig s.misses s.hitsSunk (g.shipLen k) sunkNum)).length }
        rest

/-- BattleshipEnv.updateOrientations: sink detection, then candidate
pruning with sunkNum = len(hitsSunk); there is no unique-owner pass in
this variant. -/
def updateOrientations (g : Game) (s : St) : St :=
  let s1 := sinkPhase g s
  pruneNames g s1.hitsSunk.card s1 g.names

/-- One ship-placement loop of the Statistics randomSelection.  Python
draws random catalog indices until a drawn placement is disjoint from the
committed cells, and gives up - randomSelection returns the empty set -
when the wall-clock budget lag/10 is exceeded; fuel counts the failed
draws allowed before the modelled budget check fires.  An empty candidate
list makes numpy randint raise ValueError on the first draw. -/
def placeShip (cands : List Placement) (ch : Nat → Nat) (final : Finset Cell) :
    Nat → Nat → Except String (Option (Finset Cell × Nat))
  | k, 0 =>
    if cands.length = 0 then
      Except.error "ValueError: low is greater than or equal to high"
    else
      let p := cands.getD (ch k % cands.length) ∅
      if final.card + p.card = (final ∪ p).card then Except.ok (some (final ∪ p, k + 1))
      else Except.ok none
  | k, fuel + 1 =>
    if cands.length = 0 then
      Except.error "ValueError: low is greater than or equal to high"
    else
      let p := cands.getD (ch k % cands.length) ∅
      if final.card + p.card = (final ∪ p).card then Except.ok (some (final ∪ p, k + 1))
      else placeShip cands ch final (k + 1) fuel

/-- The greedy loop of the Statistics randomSelection over the ship
order. -/
def placeShips (s : St) (ch : Nat → Nat) (fuel : Nat) :
    List Nat → Finset Cell → Nat → Except String (Option (Finset Cell × Nat))
  | [], final, k => Except.ok (some (final, k))
  | i :: rest, final, k =>
    match placeShip (s.cond i) ch final k fuel with
    | Except.error e => Except.error e
    | Except.ok none => Except.ok none
    | Except.ok (some (final2, k2)) => placeShips s ch fuel rest final2 k2

/-- One iteration of the outer while-loop of the Statistics
randomSelection: place every ship greedily from mustHappen, then accept
the attempt exactly when the length test
len(final - hits) == len(final) - len(hits) holds (Python int
subtraction, modelled in the integers); otherwise the loop starts
over (retry). -/
def attemptOnce (s : St) (order : List Nat) (mustHappen : Finset Cell)
    (ch : Nat → Nat) (fuel : Nat) : Except String SelResult :=
  match placeShips s ch fuel order mustHappen 0 with
  | Except.error e => Except.error e
  | Except.ok none => Except.ok SelResult.failEmpty
  | Except.ok (some (final, _)) =>
    if ((final \ s.hits).card : Int) = (final.card : Int) - (s.hits.card : Int) then
      Except.ok (SelResult.success final)
    else Except.ok SelResult.retry

end Stats

/-- The base Battleship constructor of either variant: it stores the
rules, derives the letter names, builds the layout catalog by
comprehension (empty for a length exceeding the dimension, with no error)
and tabulates orders.  Every operation it performs is total: no
validation happens and nothing can raise, so the result is always ok. -/
def battleshipInitE (dim : Nat) (ships : List Nat) : Except String (Nat × List Nat) :=
  Except.ok (dim, ships)

/-- The number of boards of a pool containing a cell: the count the
Counter aggregation of buildAggBoard assigns to the cell, each board
contributing each of its cells once. -/
def cnt (pool : List (Finset Cell)) (c : Cell) : Nat :=
  (pool.filter (fun b => c ∈ b)).length

/-- The key set of the aggregation dictionary: every cell of some pooled
board. -/
def poolKeys (pool : List (Finset Cell)) : Finset Cell :=
  pool.foldr (fun b acc => b ∪ acc) ∅

/-- The guess selection of BattleshipAutoplay.play: delete every hit key
from the aggregation dictionary (KeyError when a hit is not a key), then
take the key of maximal count (ValueError when none remain).  Python
iterates the dictionary in its insertion order and keeps the first
maximum; the deterministic cell enumeration stands in for that order, the
chosen cell having maximal count either way. -/
def selectNextE (pool : List (Finset Cell)) (hits : Finset Cell) : Except String Cell :=
  if hits ⊆ poolKeys pool then
    match cellList (poolKeys pool \ hits) with
    | [] => Except.error "ValueError: max arg is an empty sequence"
    | x :: xs =>
      Except.ok (xs.foldl (fun best k => if cnt pool k > cnt pool best then k else best) x)
  else Except.error "KeyError"

/-- The autoplay loop of BattleshipAutoplay.play, shared by both
variants, reduced to the evidence it reads and writes: return the turn
count when the hits reach the total ship length, otherwise build the turn
pool (the randomized buildAggBoard outcome, abstracted as a function of
the current evidence), select the next guess, record hit or miss and
loop.  A selection error (the Python KeyError or ValueError) kills the
process (none); fuel bounds the modelled number of turns. -/
def playLoop (board : Finset Cell) (total : Nat)
    (pools : Finset Cell → Finset Cell → List (Finset Cell)) :
    Nat → Finset Cell → Finset Cell → Option Nat
  | 0, _, _ => none
  | fuel + 1, h, m =>
    if h.card = total then some (h.card + m.card)
    else
      match selectNextE (pools h m) h with
      | Except.error _ => none
      | Except.ok c =>
        if c ∈ board then playLoop board total pools fuel (insert c h) m
        else playLoop board total pools fuel h (insert c m)

/-- The board grid: every cell of the dim by dim board. -/
def grid (dim : Nat) : Finset Cell :=
  (Finset.range dim ×ˢ Finset.range dim).image (fun p => (((p.1 : Nat) : Int), ((p.2 : Nat) : Int)))

/-- A concrete two by two game with one length-two ship whose true
placement is the top row, for the Bayesian variant; used by the concrete
evaluations below. -/
def g2B : Bayes.Game := { dim := 2, ships := [2], boats := [(0, {(0, 0), (0, 1)})] }

/-- The same concrete game for the Statistics variant. -/
def g2S : Stats.Game := { dim := 2, ships := [2], boats := [(0, {(0, 0), (0, 1)})] }

/-- The properties of a turn's sample pool that the sampler and the cache
filter guarantee: the pool is nonempty and every pooled board covers the
hits, avoids the misses, stays on the grid, and carries the full total of
ship cells (one placement per ship, pairwise disjoint). -/
def GoodPool (dim total : Nat) (pool : List (Finset Cell)) (h m : Finset Cell) : Prop :=
  pool ≠ [] ∧ ∀ b ∈ pool, h ⊆ b ∧ Disjoint b m ∧ b ⊆ grid dim ∧ b.card = total

/-- The evidence invariant of the autoplay loop: hits lie on the
ground-truth board, misses lie on the grid but off the board. -/
def EvInv (dim : Nat) (board : Finset Cell) (h m : Finset Cell) : Prop :=
  h ⊆ board ∧ Disjoint m board ∧ m ⊆ grid dim

namespace Bayes

/-- Well-formedness of the generated ground truth (what randomBoard
produces): distinct ship names, one catalog placement per name below
numShips, coherent dictionary lookups and pairwise disjoint placements. -/
def GT (g : Game) : Prop :=
  (g.boats.map Prod.fst).Nodup
  ∧ (∀ b ∈ g.boats, trueP g b.1 = b.2 ∧ b.1 < g.numShips ∧ b.2 ∈ catalog g.dim (g.shipLen b.1))
  ∧ (∀ k, k < g.numShips → ∃ b ∈ g.boats, b.1 = k)
  ∧ g.boats.Pairwise (fun b1 b2 => Disjoint b1.2 b2.2)

/-- The states reachable through the operations of BattleshipPlayer:
from the initial state by probes answered by the ground-truth board and
by refresh calls. -/
inductive Reach (g : Game) : St → Prop
  | init : Reach g (initSt g)
  | guess (s : St) (c : Cell) : Reach g s → Reach g (guessF g s c)
  | refresh (s : St) : Reach g s → Reach g (afterRefresh g s)

/-- The core state invariant of the Bayesian variant, minus the
hitsSunk-disjointness of candidate lists (which sink detection breaks
momentarily inside a refresh until pruning restores it): evidence is
honest, sunk bookkeeping is coherent with the ground truth, the true
placement of every non-sunk ship is still a candidate, and non-sunk
candidate lists hold placements only. -/
def Inv0 (g : Game) (s : St) : Prop :=
  s.hits ⊆ boardSet g
  ∧ Disjoint s.misses (boardSet g)
  ∧ (∀ k, k < g.numShips → s.sunk k = true → trueP g k ⊆ s.hits)
  ∧ (∀ k, k < g.numShips → s.sunk k = true → trueP g k ⊆ s.hitsSunk)
  ∧ (∀ c ∈ s.hitsSunk, ∃ k, k < g.numShips ∧ s.sunk k = true ∧ c ∈ trueP g k)
  ∧ (∀ k, k < g.numShips → s.sunk k = false → CandEntry.place (trueP g k) ∈ s.cond k)
  ∧ (∀ k, k < g.numShips → s.sunk k = false → ∀ e ∈ s.cond k, ∃ p, e = CandEntry.place p)

/-- The full invariant: additionally, no non-sunk candidate placement
meets the sunk cells. -/
def InvR (g : Game) (s : St) : Prop :=
  Inv0 g s
  ∧ (∀ k, k < g.numShips → s.sunk k = false →
      ∀ p, CandEntry.place p ∈ s.cond k → Disjoint p s.hitsSunk)

end Bayes

namespace Stats

/-- Well-formedness of the generated ground truth for the Statistics
variant. -/
def GT (g : Game) : Prop :=
  (g.boats.map Prod.fst).Nodup
  ∧ (∀ b ∈ g.boats, trueP g b.1 = b.2 ∧ b.1 < g.numShips ∧ b.2 ∈ catalog g.dim (g.shipLen b.1))
  ∧ (∀ k, k < g.numShips → ∃ b ∈ g.boats, b.1 = k)
  ∧ g.boats.Pairwise (fun b1 b2 => Disjoint b1.2 b2.2)

/-- The states reachable through the operations of BattleshipEnv. -/
inductive Reach (g : Game) : St → Prop
  | init : Reach g (initSt g)
  | guess (s : St) (c : Cell) : Reach g s → Reach g (guessF g s c)
  | refresh (s : St) : Reach g s → Reach g (updateOrientations g s)

/-- The core state invariant of the Statistics variant. -/
def Inv0 (g : Game) (s : St) : Prop :=
  s.hits ⊆ boardSet g
  ∧ Disjoint s.misses (boardSet g)
  ∧ (∀ k, k < g.numShips → s.sunk k = true → trueP g k ⊆ s.hits)
  ∧ (∀ k, k < g.numShips → s.sunk k = true → trueP g k ⊆ s.hitsSunk)
  ∧ (∀ c ∈ s.hitsSunk, ∃ k, k < g.numShips ∧ s.sunk k = true ∧ c ∈ trueP g k)
  ∧ (∀ k, k < g.numShips → s.sunk k = false → trueP g k ∈ s.cond k)

end Stats

/-!  Theorems.  -/

/-- C1: evaluation of the code at the failing input.  In the
BayesianSampling variant sink detection stores list(location) - the list
of the placement's cells - as the sunken ship's candidate list.  On a
concrete two by two game whose single length-two ship occupies the top
row, after both ship cells are hit and refresh runs, the ship is marked
sunk but its candidate list holds two entries, each a bare coordinate
cell rather than the placement, while the cached length
possibleShipsNumDictCond reports one.  The StatisticsSampling refresh
collapses the list to the singleton holding the true placement, as the
claim states. -/
theorem sunk_collapse_eval :
    (Bayes.afterRefresh g2B
        (Bayes.guessF g2B (Bayes.guessF g2B (Bayes.initSt g2B) (0, 0)) (0, 1))).sunk 0 = true
    ∧ (Bayes.afterRefresh g2B
        (Bayes.guessF g2B (Bayes.guessF g2B (Bayes.initSt g2B) (0, 0)) (0, 1))).cond 0
        = [Bayes.CandEntry.cell (0, 0), Bayes.CandEntry.cell (0, 1)]
    ∧ (Bayes.afterRefresh g2B
        (Bayes.guessF g2B (Bayes.guessF g2B (Bayes.initSt g2B) (0, 0)) (0, 1))).condNum 0 = 1
    ∧ (Stats.updateOrientations g2S
        (Stats.guessF g2S (Stats.guessF g2S (Stats.initSt g2S) (0, 0)) (0, 1))).cond 0
        = [{(0, 0), (0, 1)}] := by decide

/-- C2: counterexample.  Recording a probe outcome in the
BayesianSampling variant mutates more than the hit or miss set: guess
stores the probed cell as the last probed index.  On the freshly
initialized concrete game, nextInx changes from (-1, -1) to the probed
cell. -/
theorem guess_mutates_nextInx :
    (Bayes.initSt g2B).nextInx = (-1, -1)
    ∧ (Bayes.guessF g2B (Bayes.initSt g2B) (1, 1)).nextInx = (1, 1)
    ∧ (1, 1) ∉ (Bayes.initSt g2B).hits ∧ (1, 1) ∉ (Bayes.initSt g2B).misses := by decide

/-- C2 (amended): recording a probe outcome adds the cell to hits when
the cell is occupied in the ground-truth board and to misses otherwise;
the BayesianSampling guess additionally stores the cell as the last
probed index nextInx, and no other component of the state changes in
either variant. -/
theorem guess_frame (gB : Bayes.Game) (sB : Bayes.St) (gS : Stats.Game) (sS : Stats.St)
    (c : Cell) :
    (Bayes.guessF gB sB c).hits = (if c ∈ Bayes.boardSet gB then insert c sB.hits else sB.hits)
    ∧ (Bayes.guessF gB sB c).misses
        = (if c ∈ Bayes.boardSet gB then sB.misses else insert c sB.misses)
    ∧ (Bayes.guessF gB sB c).nextInx = c
    ∧ (Bayes.guessF gB sB c).hitsSunk = sB.hitsSunk
    ∧ (Bayes.guessF gB sB c).sunk = sB.sunk
    ∧ (Bayes.guessF gB sB c).cond = sB.cond
    ∧ (Bayes.guessF gB sB c).condNum = sB.condNum
    ∧ (Bayes.guessF gB sB c).lastTurnBoards = sB.lastTurnBoards
    ∧ (Bayes.guessF gB sB c).order = sB.order
    ∧ (Stats.guessF gS sS c).hits = (if c ∈ Stats.boardSet gS then sS.hits ∪ {c} else sS.hits)
    ∧ (Stats.guessF gS sS c).misses
        = (if c ∈ Stats.boardSet gS then sS.misses else sS.misses ∪ {c})
    ∧ (Stats.guessF gS sS c).hitsSunk = sS.hitsSunk
    ∧ (Stats.guessF gS sS c).sunk = sS.sunk
    ∧ (Stats.guessF gS sS c).cond = sS.cond
    ∧ (Stats.guessF gS sS c).condNum = sS.condNum := by
  unfold Bayes.guessF Stats.guessF
  by_cases hB : c ∈ Bayes.boardSet gB <;> by_cases hS : c ∈ Stats.boardSet gS <;>
    simp [hB, hS]

/-- C3: counterexample.  Construction does not fail fast on malformed
configurations: the base constructor succeeds on a non-positive dimension
with an empty ship list, and succeeds on a ship longer than the board
with an empty layout catalog for that ship; the error first surfaces when
random board generation draws from the empty catalog (the numpy randint
ValueError), that is, in sampling code rather than as a construction-time
validation. -/
theorem construction_no_failfast_cex :
    battleshipInitE 0 [] = Except.ok (0, [])
    ∧ battleshipInitE 3 [5] = Except.ok (3, [5])
    ∧ (Bayes.catalog 3 5).length = 0
    ∧ errOf (Bayes.randomBoardGo 3 (fun k => [5].getD k 0) (fun _ => 0) 9 [0] ∅ [] 0)
        = some "ValueError: low is greater than or equal to high" := by decide

/-- C3 (amended): the constructors perform no validation and never fail;
with a ship length exceeding the dimension (or a non-positive dimension)
the layout catalog of that ship is empty at construction without error,
and the failure surfaces only when the random board generator reaches the
ship and draws from the empty catalog. -/
theorem construction_total (dim : Nat) (ships : List Nat) (name : Nat) (rest : List Nat)
    (ch : Nat → Nat) (fuel k : Nat) (final : Finset Cell) (acc : List (Nat × Placement)) :
    battleshipInitE dim ships = Except.ok (dim, ships)
    ∧ (Bayes.catalog dim (ships.getD name 0) = [] →
        errOf (Bayes.randomBoardGo dim (fun j => ships.getD j 0) ch fuel (name :: rest) final acc k)
          = some "ValueError: low is greater than or equal to high") := by
  constructor
  · rfl
  · intro h
    rw [Bayes.randomBoardGo]
    cases fuel with
    | zero => rw [Bayes.drawLoop, h]; rfl
    | succ f => rw [Bayes.drawLoop, h]; rfl

/-- Witness for the amended C3 theorem at a concrete malformed
configuration: dimension 3 with a single ship of length 5. -/
theorem construction_total_witness :
    battleshipInitE 3 [5] = Except.ok (3, [5])
    ∧ errOf (Bayes.randomBoardGo 3 (fun j => [5].getD j 0) (fun _ => 0) 9 [0] ∅ [] 0)
        = some "ValueError: low is greater than or equal to high" :=
  ⟨(construction_total 3 [5] 0 [] (fun _ => 0) 9 0 ∅ []).1,
   (construction_total 3 [5] 0 [] (fun _ => 0) 9 0 ∅ []).2 (by decide)⟩

/-- C8: the seed pool for the next turn after a probe.  When the most
recent probe outcome recorded was a miss on cell c, the lboards pool that
buildAggBoard takes from the cached previous-turn boards holds exactly
those cached boards not containing c; after a hit on c it holds exactly
those containing c. -/
theorem seed_pool_filter (lastTurnBoards : List (Finset Cell)) (hits misses : Finset Cell)
    (c : Cell) (b : Finset Cell) :
    (c ∈ misses →
      (b ∈ Bayes.seedPool lastTurnBoards hits misses c ↔ b ∈ lastTurnBoards ∧ c ∉ b))
    ∧ (c ∈ hits → c ∉ misses →
      (b ∈ Bayes.seedPool lastTurnBoards hits misses c ↔ b ∈ lastTurnBoards ∧ c ∈ b)) := by
  unfold Bayes.seedPool
  constructor
  · intro hm
    simp [hm, List.mem_filter]
  · intro hh hm
    simp [hh, hm, List.mem_filter]

/-- Witness for the C8 theorem: a concrete miss filtering and a concrete
hit filtering of a cached pool. -/
theorem seed_pool_filter_witness :
    (({(1, 1)} : Finset Cell) ∈ Bayes.seedPool [{(0, 0)}, {(1, 1)}] ∅ {(0, 0)} (0, 0)
      ↔ ({(1, 1)} : Finset Cell) ∈ [({(0, 0)} : Finset Cell), {(1, 1)}]
          ∧ (0, 0) ∉ ({(1, 1)} : Finset Cell))
    ∧ (({(0, 0), (0, 1)} : Finset Cell)
          ∈ Bayes.seedPool [{(0, 0), (0, 1)}, {(1, 0), (1, 1)}] {(0, 0)} ∅ (0, 0)
      ↔ ({(0, 0), (0, 1)} : Finset Cell)
          ∈ [({(0, 0), (0, 1)} : Finset Cell), {(1, 0), (1, 1)}]
          ∧ (0, 0) ∈ ({(0, 0), (0, 1)} : Finset Cell)) :=
  ⟨(seed_pool_filter [{(0, 0)}, {(1, 1)}] ∅ {(0, 0)} (0, 0) {(1, 1)}).1 (by decide),
   (seed_pool_filter [{(0, 0), (0, 1)}, {(1, 0), (1, 1)}] {(0, 0)} ∅ (0, 0)
      {(0, 0), (0, 1)}).2 (by decide) (by decide)⟩


theorem pruneList_ok_mem {m hs : Finset Cell} :
    ∀ (l l' : List Bayes.CandEntry), Bayes.pruneList m hs l = Except.ok l' →
      ∀ e ∈ l', ∃ p, e = Bayes.CandEntry.place p ∧ Disjoint m p ∧ Disjoint p hs := by
  intro l
  induction l with
  | nil =>
    intro l' h e he
    rw [Bayes.pruneList] at h
    cases h
    simp at he
  | cons a rest ih =>
    intro l' h e he
    cases a with
    | cell c => rw [Bayes.pruneList] at h; cases h
    | place p =>
      rw [Bayes.pruneList] at h
      cases hrest : Bayes.pruneList m hs rest with
      | error err => rw [hrest] at h; cases h
      | ok tail =>
        rw [hrest] at h
        simp only [Except.map] at h
        cases h
        by_cases hd : Disjoint m p ∧ Disjoint p hs
        · rw [if_pos hd] at he
          rcases List.mem_cons.mp he with rfl | htail
          · exact ⟨p, rfl, hd⟩
          · exact ih tail hrest e htail
        · rw [if_neg hd] at he
          exact ih tail hrest e he

theorem pruneList_keeps {m hs : Finset Cell} {p : Placement} :
    ∀ (l l' : List Bayes.CandEntry), Bayes.pruneList m hs l = Except.ok l' →
      Bayes.CandEntry.place p ∈ l → Disjoint m p → Disjoint p hs →
      Bayes.CandEntry.place p ∈ l' := by
  intro l
  induction l with
  | nil => intro l' h hm; simp at hm
  | cons a rest ih =>
    intro l' h hm h1 h2
    cases a with
    | cell c => rw [Bayes.pruneList] at h; cases h
    | place q =>
      rw [Bayes.pruneList] at h
      cases hrest : Bayes.pruneList m hs rest with
      | error err => rw [hrest] at h; cases h
      | ok tail =>
        rw [hrest] at h
        simp only [Except.map] at h
        cases h
        rcases List.mem_cons.mp hm with heq | htail
        · have hq : q = p := by injection heq.symm
          subst hq
          rw [if_pos ⟨h1, h2⟩]
          exact List.mem_cons_self _ _
        · by_cases hd : Disjoint m q ∧ Disjoint q hs
          · rw [if_pos hd]; exact List.mem_cons_of_mem _ (ih tail hrest htail h1 h2)
          · rw [if_neg hd]; exact ih tail hrest htail h1 h2

theorem pruneNames_frame :
    ∀ (names : List Nat) (s s' : Bayes.St), Bayes.pruneNames s names = Except.ok s' →
      s'.hits = s.hits ∧ s'.misses = s.misses ∧ s'.hitsSunk = s.hitsSunk ∧ s'.sunk = s.sunk
        ∧ s'.lastTurnBoards = s.lastTurnBoards ∧ s'.nextInx = s.nextInx ∧ s'.order = s.order := by
  intro names
  induction names with
  | nil =>
    intro s s' h
    rw [Bayes.pruneNames] at h
    cases h
    exact ⟨rfl, rfl, rfl, rfl, rfl, rfl, rfl⟩
  | cons k rest ih =>
    intro s s' h
    rw [Bayes.pruneNames] at h
    by_cases hk : s.sunk k
    · rw [if_pos hk] at h
      exact ih s s' h
    · rw [if_neg hk] at h
      cases hp : Bayes.pruneList s.misses s.hitsSunk (s.cond k) with
      | error e => rw [hp] at h; cases h
      | ok l =>
        rw [hp] at h
        have h2 : Bayes.pruneNames { s with cond := Function.update s.cond k l, condNum := Function.update s.condNum k l.length } rest = Except.ok s' := h
        exact ih { s with cond := Function.update s.cond k l, condNum := Function.update s.condNum k l.length } s' h2

theorem pruneNames_cond_outside :
    ∀ (names : List Nat) (s s' : Bayes.St), Bayes.pruneNames s names = Except.ok s' →
      ∀ k, k ∉ names → s'.cond k = s.cond k := by
  intro names
  induction names with
  | nil =>
    intro s s' h k _
    rw [Bayes.pruneNames] at h
    cases h; rfl
  | cons j rest ih =>
    intro s s' h k hk
    have hkj : k ≠ j := fun he => hk (he ▸ List.mem_cons_self _ _)
    have hkr : k ∉ rest := fun hm => hk (List.mem_cons_of_mem _ hm)
    rw [Bayes.pruneNames] at h
    by_cases hj : s.sunk j
    · rw [if_pos hj] at h
      exact ih s s' h k hkr
    · rw [if_neg hj] at h
      cases hp : Bayes.pruneList s.misses s.hitsSunk (s.cond j) with
      | error e => rw [hp] at h; cases h
      | ok l =>
        rw [hp] at h
        have h2 : Bayes.pruneNames { s with cond := Function.update s.cond j l, condNum := Function.update s.condNum j l.length } rest = Except.ok s' := h
        have := ih _ _ h2 k hkr
        rw [this]
        simp [Function.update, hkj]

theorem pruneNames_cond_spec :
    ∀ (names : List Nat) (s s' : Bayes.St), Bayes.pruneNames s names = Except.ok s' →
      ∀ k ∈ names, s.sunk k = false →
        ∀ e ∈ s'.cond k, ∃ p, e = Bayes.CandEntry.place p
          ∧ Disjoint s.misses p ∧ Disjoint p s.hitsSunk := by
  intro names
  induction names with
  | nil => intro s s' h k hk; simp at hk
  | cons j rest ih =>
    intro s s' h k hk hns e he
    rw [Bayes.pruneNames] at h
    by_cases hj : s.sunk j
    · rw [if_pos hj] at h
      rcases List.mem_cons.mp hk with rfl | hkr
      · rw [hj] at hns; cases hns
      · exact ih s s' h k hkr hns e he
    · rw [if_neg hj] at h
      cases hp : Bayes.pruneList s.misses s.hitsSunk (s.cond j) with
      | error err => rw [hp] at h; cases h
      | ok l =>
        rw [hp] at h
        have h2 : Bayes.pruneNames { s with cond := Function.update s.cond j l, condNum := Function.update s.condNum j l.length } rest = Except.ok s' := h
        by_cases hkr : k ∈ rest
        · exact ih _ _ h2 k hkr hns e he
        · rcases List.mem_cons.mp hk with rfl | hkr2
          · -- k = j, not in rest: cond k after = l
            have hout := pruneNames_cond_outside _ _ _ h2 k hkr
            rw [hout] at he
            simp [Function.update] at he
            exact pruneList_ok_mem _ _ hp e he
          · exact absurd hkr2 hkr

theorem uniqueOwnerStep_frame (g : Bayes.Game) (s : Bayes.St) (h : Cell) :
    (Bayes.uniqueOwnerStep g s h).hits = s.hits
    ∧ (Bayes.uniqueOwnerStep g s h).misses = s.misses
    ∧ (Bayes.uniqueOwnerStep g s h).hitsSunk = s.hitsSunk
    ∧ (Bayes.uniqueOwnerStep g s h).sunk = s.sunk
    ∧ (Bayes.uniqueOwnerStep g s h).lastTurnBoards = s.lastTurnBoards
    ∧ (Bayes.uniqueOwnerStep g s h).nextInx = s.nextInx
    ∧ (Bayes.uniqueOwnerStep g s h).order = s.order := by
  unfold Bayes.uniqueOwnerStep
  split <;> exact ⟨rfl, rfl, rfl, rfl, rfl, rfl, rfl⟩

theorem uniqueOwnerStep_cond_sub (g : Bayes.Game) (s : Bayes.St) (h : Cell) (k : Nat) :
    ∀ e ∈ (Bayes.uniqueOwnerStep g s h).cond k, e ∈ s.cond k := by
  intro e he
  unfold Bayes.uniqueOwnerStep at he
  split at he
  next k' _ =>
    simp only [Function.update_apply] at he
    by_cases hk : k = k'
    · rw [if_pos hk] at he
      subst hk
      exact (List.mem_filter.mp he).1
    · rw [if_neg hk] at he
      exact he
  next => exact he

theorem foldl_uo_frame (g : Bayes.Game) :
    ∀ (hl : List Cell) (s : Bayes.St),
      (hl.foldl (Bayes.uniqueOwnerStep g) s).hits = s.hits
      ∧ (hl.foldl (Bayes.uniqueOwnerStep g) s).misses = s.misses
      ∧ (hl.foldl (Bayes.uniqueOwnerStep g) s).hitsSunk = s.hitsSunk
      ∧ (hl.foldl (Bayes.uniqueOwnerStep g) s).sunk = s.sunk
      ∧ (hl.foldl (Bayes.uniqueOwnerStep g) s).lastTurnBoards = s.lastTurnBoards
      ∧ (hl.foldl (Bayes.uniqueOwnerStep g) s).nextInx = s.nextInx := by
  intro hl
  induction hl with
  | nil => intro s; exact ⟨rfl, rfl, rfl, rfl, rfl, rfl⟩
  | cons h rest ih =>
    intro s
    have hs := uniqueOwnerStep_frame g s h
    have hr := ih (Bayes.uniqueOwnerStep g s h)
    simp only [List.foldl_cons]
    exact ⟨hr.1.trans hs.1, hr.2.1.trans hs.2.1, hr.2.2.1.trans hs.2.2.1,
      hr.2.2.2.1.trans hs.2.2.2.1, hr.2.2.2.2.1.trans hs.2.2.2.2.1,
      hr.2.2.2.2.2.trans hs.2.2.2.2.2.1⟩

theorem foldl_uo_cond_sub (g : Bayes.Game) :
    ∀ (hl : List Cell) (s : Bayes.St) (k : Nat),
      ∀ e ∈ (hl.foldl (Bayes.uniqueOwnerStep g) s).cond k, e ∈ s.cond k := by
  intro hl
  induction hl with
  | nil => intro s k e he; exact he
  | cons h rest ih =>
    intro s k e he
    simp only [List.foldl_cons] at he
    exact uniqueOwnerStep_cond_sub g s h k e (ih (Bayes.uniqueOwnerStep g s h) k e he)

theorem propagate_frame (g : Bayes.Game) (s : Bayes.St) :
    (Bayes.propagatePhase g s).hits = s.hits
    ∧ (Bayes.propagatePhase g s).misses = s.misses
    ∧ (Bayes.propagatePhase g s).hitsSunk = s.hitsSunk
    ∧ (Bayes.propagatePhase g s).sunk = s.sunk
    ∧ (Bayes.propagatePhase g s).lastTurnBoards = s.lastTurnBoards
    ∧ (Bayes.propagatePhase g s).nextInx = s.nextInx :=
  foldl_uo_frame g (cellList s.hits) s

theorem propagate_cond_sub (g : Bayes.Game) (s : Bayes.St) (k : Nat) :
    ∀ e ∈ (Bayes.propagatePhase g s).cond k, e ∈ s.cond k :=
  foldl_uo_cond_sub g (cellList s.hits) s k

theorem sinkStep_frame (s : Bayes.St) (b : Nat × Placement) :
    (Bayes.sinkStep s b).hits = s.hits
    ∧ (Bayes.sinkStep s b).misses = s.misses
    ∧ (Bayes.sinkStep s b).lastTurnBoards = s.lastTurnBoards
    ∧ (Bayes.sinkStep s b).nextInx = s.nextInx
    ∧ (Bayes.sinkStep s b).order = s.order := by
  unfold Bayes.sinkStep
  split <;> exact ⟨rfl, rfl, rfl, rfl, rfl⟩

theorem sinkStep_not_sunk (s : Bayes.St) (b : Nat × Placement) (k : Nat)
    (h : (Bayes.sinkStep s b).sunk k = false) :
    s.sunk k = false ∧ (Bayes.sinkStep s b).cond k = s.cond k := by
  unfold Bayes.sinkStep at h ⊢
  split at h
  next hb =>
    rw [if_pos hb]
    simp only [Function.update_apply] at h ⊢
    by_cases hk : k = b.1
    · rw [if_pos hk] at h; cases h
    · rw [if_neg hk] at h
      rw [if_neg hk]
      exact ⟨h, rfl⟩
  next hb =>
    rw [if_neg hb]
    exact ⟨h, rfl⟩

theorem sink_fold_not_sunk :
    ∀ (bl : List (Nat × Placement)) (s : Bayes.St) (k : Nat),
      (bl.foldl Bayes.sinkStep s).sunk k = false →
      s.sunk k = false ∧ (bl.foldl Bayes.sinkStep s).cond k = s.cond k := by
  intro bl
  induction bl with
  | nil => intro s k h; exact ⟨h, rfl⟩
  | cons b rest ih =>
    intro s k h
    simp only [List.foldl_cons] at h ⊢
    have hr := ih (Bayes.sinkStep s b) k h
    have hb := sinkStep_not_sunk s b k hr.1
    exact ⟨hb.1, hr.2.trans hb.2⟩

theorem sink_fold_frame :
    ∀ (bl : List (Nat × Placement)) (s : Bayes.St),
      (bl.foldl Bayes.sinkStep s).hits = s.hits
      ∧ (bl.foldl Bayes.sinkStep s).misses = s.misses
      ∧ (bl.foldl Bayes.sinkStep s).lastTurnBoards = s.lastTurnBoards
      ∧ (bl.foldl Bayes.sinkStep s).nextInx = s.nextInx
      ∧ (bl.foldl Bayes.sinkStep s).order = s.order := by
  intro bl
  induction bl with
  | nil => intro s; exact ⟨rfl, rfl, rfl, rfl, rfl⟩
  | cons b rest ih =>
    intro s
    simp only [List.foldl_cons]
    have hr := ih (Bayes.sinkStep s b)
    have hb := sinkStep_frame s b
    exact ⟨hr.1.trans hb.1, hr.2.1.trans hb.2.1, hr.2.2.1.trans hb.2.2.1,
      hr.2.2.2.1.trans hb.2.2.2.1, hr.2.2.2.2.trans hb.2.2.2.2⟩

theorem stats_sinkStep_frame (s : Stats.St) (b : Nat × Placement) :
    (Stats.sinkStep s b).hits = s.hits ∧ (Stats.sinkStep s b).misses = s.misses := by
  unfold Stats.sinkStep
  split <;> exact ⟨rfl, rfl⟩

theorem stats_sinkStep_not_sunk (s : Stats.St) (b : Nat × Placement) (k : Nat)
    (h : (Stats.sinkStep s b).sunk k = false) :
    s.sunk k = false ∧ (Stats.sinkStep s b).cond k = s.cond k := by
  unfold Stats.sinkStep at h ⊢
  split at h
  next hb =>
    rw [if_pos hb]
    simp only [Function.update_apply] at h ⊢
    by_cases hk : k = b.1
    · rw [if_pos hk] at h; cases h
    · rw [if_neg hk] at h
      rw [if_neg hk]
      exact ⟨h, rfl⟩
  next hb =>
    rw [if_neg hb]
    exact ⟨h, rfl⟩

theorem stats_sink_fold_not_sunk :
    ∀ (bl : List (Nat × Placement)) (s : Stats.St) (k : Nat),
      (bl.foldl Stats.sinkStep s).sunk k = false →
      s.sunk k = false ∧ (bl.foldl Stats.sinkStep s).cond k = s.cond k := by
  intro bl
  induction bl with
  | nil => intro s k h; exact ⟨h, rfl⟩
  | cons b rest ih =>
    intro s k h
    simp only [List.foldl_cons] at h ⊢
    have hr := ih (Stats.sinkStep s b) k h
    have hb := stats_sinkStep_not_sunk s b k hr.1
    exact ⟨hb.1, hr.2.trans hb.2⟩

theorem stats_sink_fold_frame :
    ∀ (bl : List (Nat × Placement)) (s : Stats.St),
      (bl.foldl Stats.sinkStep s).hits = s.hits
      ∧ (bl.foldl Stats.sinkStep s).misses = s.misses := by
  intro bl
  induction bl with
  | nil => intro s; exact ⟨rfl, rfl⟩
  | cons b rest ih =>
    intro s
    simp only [List.foldl_cons]
    have hr := ih (Stats.sinkStep s b)
    have hb := stats_sinkStep_frame s b
    exact ⟨hr.1.trans hb.1, hr.2.trans hb.2⟩

theorem stats_pruneNames_frame :
    ∀ (names : List Nat) (g : Stats.Game) (n : Nat) (s : Stats.St),
      (Stats.pruneNames g n s names).hits = s.hits
      ∧ (Stats.pruneNames g n s names).misses = s.misses
      ∧ (Stats.pruneNames g n s names).hitsSunk = s.hitsSunk
      ∧ (Stats.pruneNames g n s names).sunk = s.sunk := by
  intro names
  induction names with
  | nil => intro g n s; rw [Stats.pruneNames]; exact ⟨rfl, rfl, rfl, rfl⟩
  | cons k rest ih =>
    intro g n s
    rw [Stats.pruneNames]
    by_cases hk : s.sunk k
    · rw [if_pos hk]; exact ih g n s
    · rw [if_neg hk]
      exact ih g n _

theorem stats_pruneNames_cond_outside :
    ∀ (names : List Nat) (g : Stats.Game) (n : Nat) (s : Stats.St) (k : Nat), k ∉ names →
      (Stats.pruneNames g n s names).cond k = s.cond k := by
  intro names
  induction names with
  | nil => intro g n s k _; rw [Stats.pruneNames]
  | cons j rest ih =>
    intro g n s k hk
    have hkj : k ≠ j := fun he => hk (he ▸ List.mem_cons_self _ _)
    have hkr : k ∉ rest := fun hm => hk (List.mem_cons_of_mem _ hm)
    rw [Stats.pruneNames]
    by_cases hj : s.sunk j
    · rw [if_pos hj]; exact ih g n s k hkr
    · rw [if_neg hj]
      rw [ih g n _ k hkr]
      simp [Function.update_apply, hkj]

theorem stats_pruneNames_cond_spec :
    ∀ (names : List Nat) (g : Stats.Game) (n : Nat) (s : Stats.St) (k : Nat), k ∈ names →
      s.sunk k = false →
      ∀ q ∈ (Stats.pruneNames g n s names).cond k,
        q ∈ s.cond k ∧ Stats.keepConfig s.misses s.hitsSunk (g.shipLen k) n q = true := by
  intro names
  induction names with
  | nil => intro g n s k hk; simp at hk
  | cons j rest ih =>
    intro g n s k hk hns q hq
    rw [Stats.pruneNames] at hq
    by_cases hj : s.sunk j
    · rw [if_pos hj] at hq
      rcases List.mem_cons.mp hk with rfl | hkr
      · rw [hj] at hns; cases hns
      · exact ih g n s k hkr hns q hq
    · rw [if_neg hj] at hq
      have hq2 : q ∈ (Stats.pruneNames g n { s with cond := Function.update s.cond j ((s.cond j).filter (Stats.keepConfig s.misses s.hitsSunk (g.shipLen j) n)), condNum := Function.update s.condNum j ((s.cond j).filter (Stats.keepConfig s.misses s.hitsSunk (g.shipLen j) n)).length } rest).cond k := hq
      by_cases hkr : k ∈ rest
      · have := ih g n { s with cond := Function.update s.cond j ((s.cond j).filter (Stats.keepConfig s.misses s.hitsSunk (g.shipLen j) n)), condNum := Function.update s.condNum j ((s.cond j).filter (Stats.keepConfig s.misses s.hitsSunk (g.shipLen j) n)).length } k hkr hns q hq2
        rcases this with ⟨hmem, hkeep⟩
        simp only [Function.update_apply] at hmem
        by_cases hkj : k = j
        · subst hkj
          rw [if_pos rfl] at hmem
          exact ⟨(List.mem_filter.mp hmem).1, hkeep⟩
        · rw [if_neg hkj] at hmem
          exact ⟨hmem, hkeep⟩
      · rcases List.mem_cons.mp hk with rfl | hkr2
        · have hout := stats_pruneNames_cond_outside rest g n { s with cond := Function.update s.cond k ((s.cond k).filter (Stats.keepConfig s.misses s.hitsSunk (g.shipLen k) n)), condNum := Function.update s.condNum k ((s.cond k).filter (Stats.keepConfig s.misses s.hitsSunk (g.shipLen k) n)).length } k hkr
          rw [hout] at hq2
          simp only [Function.update_apply, if_pos rfl] at hq2
          have := List.mem_filter.mp hq2
          exact ⟨this.1, this.2⟩
        · exact absurd hkr2 hkr

theorem keepConfig_disjoint {m hs : Finset Cell} {L n : Nat} {q : Placement}
    (hkeep : Stats.keepConfig m hs L n q = true) (hcard : q.card = L) (hn : hs.card = n) :
    Disjoint m q ∧ Disjoint q hs := by
  unfold Stats.keepConfig at hkeep
  rw [Bool.and_eq_true, decide_eq_true_iff, decide_eq_true_iff] at hkeep
  obtain ⟨h1, h2⟩ := hkeep
  constructor
  · have hu := Finset.card_union_add_card_inter m q
    rw [h1, hcard] at hu
    have hz : (m ∩ q).card = 0 := by omega
    rw [Finset.card_eq_zero] at hz
    exact Finset.disjoint_iff_inter_eq_empty.mpr hz
  · have hu := Finset.card_union_add_card_inter q hs
    rw [h2, hcard, hn] at hu
    have hz : (q ∩ hs).card = 0 := by omega
    rw [Finset.card_eq_zero] at hz
    exact Finset.disjoint_iff_inter_eq_empty.mpr hz

/-- C5: immediately after any refresh call, every placement remaining in
the candidate list of a ship not marked sunk is disjoint from the misses
and from the sunk cells, in both variants.  For the Statistics variant
the length-arithmetic pruning test yields disjointness for the catalog
placements, whose size is the ship length (the hlen hypothesis, an
invariant of every reachable state). -/
theorem refresh_prunes
    (g : Bayes.Game) (s : Bayes.St) (k : Nat) (p : Placement)
    (gS : Stats.Game) (sS : Stats.St) (kS : Nat) (q : Placement)
    (hk : k < g.numShips)
    (hok : exceptOk (Bayes.updateOrientations g s) = true)
    (hns : (Bayes.afterRefresh g s).sunk k = false)
    (hmem : Bayes.CandEntry.place p ∈ (Bayes.afterRefresh g s).cond k)
    (hkS : kS < gS.numShips)
    (hlen : ∀ r ∈ sS.cond kS, r.card = gS.shipLen kS)
    (hnsS : (Stats.updateOrientations gS sS).sunk kS = false)
    (hmemS : q ∈ (Stats.updateOrientations gS sS).cond kS) :
    (Disjoint p (Bayes.afterRefresh g s).misses ∧ Disjoint p (Bayes.afterRefresh g s).hitsSunk)
    ∧ (Disjoint q (Stats.updateOrientations gS sS).misses
        ∧ Disjoint q (Stats.updateOrientations gS sS).hitsSunk) := by
  constructor
  · cases hu : Bayes.updateOrientations g s with
    | error e => rw [hu] at hok; exact absurd hok (by simp [exceptOk])
    | ok s3 =>
      have ha : Bayes.afterRefresh g s = s3 := by unfold Bayes.afterRefresh; rw [hu]
      rw [ha] at hns hmem ⊢
      unfold Bayes.updateOrientations at hu
      cases hpn : Bayes.pruneNames (Bayes.sinkPhase g s) g.names with
      | error e => rw [hpn] at hu; cases hu
      | ok s2 =>
        rw [hpn] at hu
        injection hu with hu
        subst hu
        have hpf := propagate_frame g s2
        have hnf := pruneNames_frame g.names (Bayes.sinkPhase g s) s2 hpn
        have hns1 : (Bayes.sinkPhase g s).sunk k = false := by
          have h1 : (Bayes.propagatePhase g s2).sunk k = false := hns
          rw [hpf.2.2.2.1] at h1
          rw [hnf.2.2.2.1] at h1
          exact h1
        have hmem2 : Bayes.CandEntry.place p ∈ s2.cond k :=
          propagate_cond_sub g s2 k _ hmem
        have hkmem : k ∈ g.names := by
          simpa [Bayes.Game.names] using List.mem_range.mpr hk
        obtain ⟨p', heq, hd1, hd2⟩ :=
          pruneNames_cond_spec g.names (Bayes.sinkPhase g s) s2 hpn k hkmem hns1 _ hmem2
        have hpp : p = p' := by injection heq
        subst hpp
        constructor
        · show Disjoint p (Bayes.propagatePhase g s2).misses
          rw [hpf.2.1, hnf.2.1]
          exact hd1.symm
        · show Disjoint p (Bayes.propagatePhase g s2).hitsSunk
          rw [hpf.2.2.1, hnf.2.2.1]
          exact hd2
  · have heq : Stats.updateOrientations gS sS
        = Stats.pruneNames gS (Stats.sinkPhase gS sS).hitsSunk.card (Stats.sinkPhase gS sS)
            gS.names := rfl
    rw [heq] at hnsS hmemS ⊢
    have hf := stats_pruneNames_frame gS.names gS (Stats.sinkPhase gS sS).hitsSunk.card
      (Stats.sinkPhase gS sS)
    have hns1 : (Stats.sinkPhase gS sS).sunk kS = false := by
      rw [hf.2.2.2] at hnsS; exact hnsS
    have hsink := stats_sink_fold_not_sunk gS.boats sS kS hns1
    have hkmem : kS ∈ gS.names := by
      simpa [Stats.Game.names] using List.mem_range.mpr hkS
    obtain ⟨hmem2, hkeep⟩ :=
      stats_pruneNames_cond_spec gS.names gS (Stats.sinkPhase gS sS).hitsSunk.card
        (Stats.sinkPhase gS sS) kS hkmem hns1 q hmemS
    have hmem3 : q ∈ sS.cond kS := by
      have := hsink.2
      unfold Stats.sinkPhase at this hmem2
      rw [this] at hmem2
      exact hmem2
    have hq := keepConfig_disjoint hkeep (hlen q hmem3) rfl
    constructor
    · rw [hf.2.1]
      have hm : (Stats.sinkPhase gS sS).misses = sS.misses :=
        (stats_sink_fold_frame gS.boats sS).2
      exact hq.1.symm
    · rw [hf.2.2.1]
      exact hq.2

/-- Witness for the C5 theorem: the concrete two by two game after a miss
on (1, 1) and a refresh, with the surviving column placement. -/
theorem refresh_prunes_witness :
    (Disjoint ({(0, 0), (1, 0)} : Finset Cell)
        (Bayes.afterRefresh g2B (Bayes.guessF g2B (Bayes.initSt g2B) (1, 1))).misses
      ∧ Disjoint ({(0, 0), (1, 0)} : Finset Cell)
        (Bayes.afterRefresh g2B (Bayes.guessF g2B (Bayes.initSt g2B) (1, 1))).hitsSunk)
    ∧ (Disjoint ({(0, 0), (1, 0)} : Finset Cell)
        (Stats.updateOrientations g2S (Stats.guessF g2S (Stats.initSt g2S) (1, 1))).misses
      ∧ Disjoint ({(0, 0), (1, 0)} : Finset Cell)
        (Stats.updateOrientations g2S (Stats.guessF g2S (Stats.initSt g2S) (1, 1))).hitsSunk) :=
  refresh_prunes g2B (Bayes.guessF g2B (Bayes.initSt g2B) (1, 1)) 0 {(0, 0), (1, 0)}
    g2S (Stats.guessF g2S (Stats.initSt g2S) (1, 1)) 0 {(0, 0), (1, 0)}
    (by decide) (by decide) (by decide) (by decide) (by decide) (by decide) (by decide) (by decide)


/-- C6: counterexample.  The StatisticsSampling refresh performs no
unique-owner propagation.  On the concrete two by two game with its
single ship, after a hit on (0, 0) - a hit cell not in sunkCells whose
only possible owner is the one non-sunk ship, which does have candidates
covering it - updateOrientations leaves a candidate placement not
covering (0, 0) in the list, where the claim requires the list to be
restricted to the covering placements. -/
theorem no_unique_owner_in_stats :
    (0, 0) ∈ (Stats.updateOrientations g2S (Stats.guessF g2S (Stats.initSt g2S) (0, 0))).hits
    ∧ (0, 0) ∉ (Stats.updateOrientations g2S (Stats.guessF g2S (Stats.initSt g2S) (0, 0))).hitsSunk
    ∧ (Stats.updateOrientations g2S (Stats.guessF g2S (Stats.initSt g2S) (0, 0))).sunk 0 = false
    ∧ Stats.Game.numShips g2S = 1
    ∧ ({(0, 0), (1, 0)} : Finset Cell)
        ∈ (Stats.updateOrientations g2S (Stats.guessF g2S (Stats.initSt g2S) (0, 0))).cond 0
    ∧ (0, 0) ∈ ({(0, 0), (1, 0)} : Finset Cell)
    ∧ ({(1, 0), (1, 1)} : Finset Cell)
        ∈ (Stats.updateOrientations g2S (Stats.guessF g2S (Stats.initSt g2S) (0, 0))).cond 0
    ∧ (0, 0) ∉ ({(1, 0), (1, 1)} : Finset Cell) := by decide

/-- C6 (amended): only the BayesianSampling refresh performs unique-owner
propagation, as one pass of uniqueOwnerStep over every hit cell (the
final conjunct ties the pass to refresh): at each step, when exactly one
ship has a candidate entry covering the cell, that ship's candidate list
is restricted to the entries covering the cell and every other list is
unchanged; with any other owner count the state is untouched.  A ship
counts as an owner exactly when some entry of its candidate list covers
the cell; a sunk ship's entries are bare cells and never cover anything
(in Python their union is a set of integers), so only non-sunk ships are
ever counted, and a pass step at a cell already in sunkCells finds no
owners and does nothing.  The StatisticsSampling refresh has no such
pass. -/
theorem unique_owner_step (g : Bayes.Game) (s : Bayes.St) (h : Cell) (k j : Nat) (c : Cell)
    (p : Placement) :
    (Bayes.owners g s h = [k] →
      (Bayes.uniqueOwnerStep g s h).cond k = (s.cond k).filter (Bayes.entryCovers h)
        ∧ (Bayes.uniqueOwnerStep g s h).condNum k
            = ((s.cond k).filter (Bayes.entryCovers h)).length
        ∧ (j ≠ k → (Bayes.uniqueOwnerStep g s h).cond j = s.cond j))
    ∧ ((Bayes.owners g s h).length ≠ 1 → Bayes.uniqueOwnerStep g s h = s)
    ∧ (j ∈ Bayes.owners g s h ↔ j ∈ g.names ∧ (s.cond j).any (Bayes.entryCovers h) = true)
    ∧ Bayes.entryCovers h (Bayes.CandEntry.cell c) = false
    ∧ (Bayes.entryCovers h (Bayes.CandEntry.place p) = true ↔ h ∈ p)
    ∧ Bayes.propagatePhase g s = (cellList s.hits).foldl (Bayes.uniqueOwnerStep g) s := by
  refine ⟨?_, ?_, ?_, rfl, ?_, rfl⟩
  · intro how
    unfold Bayes.uniqueOwnerStep
    rw [how]
    refine ⟨?_, ?_, ?_⟩
    · simp [Function.update_apply]
    · simp [Function.update_apply]
    · intro hj
      simp [Function.update_apply, hj]
  · intro hlen
    unfold Bayes.uniqueOwnerStep
    split
    next k' heq => rw [heq] at hlen; simp at hlen
    next => rfl
  · unfold Bayes.owners
    rw [List.mem_filter]
  · unfold Bayes.entryCovers
    exact decide_eq_true_iff

/-- Witness for the amended C6 theorem: the restriction at a concrete
unique-owner state, and the no-op at a concrete state with no owner. -/
theorem unique_owner_step_witness :
    (Bayes.uniqueOwnerStep g2B (Bayes.initSt g2B) (0, 0)).cond 0
        = ((Bayes.initSt g2B).cond 0).filter (Bayes.entryCovers (0, 0))
    ∧ Bayes.uniqueOwnerStep g2B { Bayes.initSt g2B with cond := fun _ => [] } (0, 0)
        = { Bayes.initSt g2B with cond := fun _ => [] } :=
  ⟨((unique_owner_step g2B (Bayes.initSt g2B) (0, 0) 0 1 (5, 5) {(0, 0)}).1 (by decide)).1,
   (unique_owner_step g2B { Bayes.initSt g2B with cond := fun _ => [] } (0, 0) 0 1 (5, 5)
      {(0, 0)}).2.1 (by decide)⟩

theorem poolKeys_mem : ∀ (pool : List (Finset Cell)) (c : Cell),
    c ∈ poolKeys pool ↔ ∃ b ∈ pool, c ∈ b := by
  intro pool c
  induction pool with
  | nil => simp [poolKeys]
  | cons b rest ih =>
    unfold poolKeys at ih ⊢
    simp only [List.foldr_cons, Finset.mem_union, List.mem_cons]
    rw [ih]
    constructor
    · rintro (hc | ⟨b2, hb2, hc⟩)
      · exact ⟨b, Or.inl rfl, hc⟩
      · exact ⟨b2, Or.inr hb2, hc⟩
    · rintro ⟨b2, hb2 | hb2, hc⟩
      · exact Or.inl (hb2 ▸ hc)
      · exact Or.inr ⟨b2, hb2, hc⟩

theorem foldl_max_mem (f : Cell → Nat) : ∀ (xs : List Cell) (x : Cell),
    xs.foldl (fun best k => if f k > f best then k else best) x ∈ x :: xs := by
  intro xs
  induction xs with
  | nil => intro x; exact List.mem_cons_self _ _
  | cons y ys ih =>
    intro x
    simp only [List.foldl_cons]
    have := ih (if f y > f x then y else x)
    rcases List.mem_cons.mp this with heq | hmem
    · rw [heq]
      by_cases hc : f y > f x
      · rw [if_pos hc]; exact List.mem_cons_of_mem _ (List.mem_cons_self _ _)
      · rw [if_neg hc]; exact List.mem_cons_self _ _
    · exact List.mem_cons_of_mem _ (List.mem_cons_of_mem _ hmem)

theorem cellList_mem (s : Finset Cell) (c : Cell) : c ∈ cellList s ↔ c ∈ s := by
  rcases s with ⟨m, nd⟩
  induction m using Quotient.inductionOn with
  | h l =>
    show c ∈ List.insertionSort cellLE l ↔ _
    rw [List.Perm.mem_iff (List.perm_insertionSort cellLE l)]
    simp [Finset.mem_mk]

/-- C7: the per-turn guess selection of BattleshipAutoplay.play never
returns a cell already in hits or in misses.  Hit keys are deleted from
the aggregation dictionary before the maximum is taken, so the selected
key lies outside hits unconditionally; and no cell of a pooled board lies
in misses (the sampler property established for the pool), so no key at
all is a miss cell. -/
theorem select_fresh (pool : List (Finset Cell)) (hits misses : Finset Cell) (c : Cell)
    (hdisj : ∀ b ∈ pool, Disjoint b misses)
    (hsel : selectNextE pool hits = Except.ok c) :
    c ∉ hits ∧ c ∉ misses := by
  unfold selectNextE at hsel
  by_cases hsub : hits ⊆ poolKeys pool
  · rw [if_pos hsub] at hsel
    cases hcl : cellList (poolKeys pool \ hits) with
    | nil => rw [hcl] at hsel; cases hsel
    | cons x xs =>
      rw [hcl] at hsel
      injection hsel with hc
      have hmem : c ∈ x :: xs := hc ▸ foldl_max_mem (cnt pool) xs x
      rw [← hcl] at hmem
      have hsd := (cellList_mem _ c).mp hmem
      rw [Finset.mem_sdiff] at hsd
      obtain ⟨hk, hnh⟩ := hsd
      refine ⟨hnh, ?_⟩
      obtain ⟨b, hb, hcb⟩ := (poolKeys_mem pool c).mp hk
      exact fun hcm => Finset.disjoint_left.mp (hdisj b hb) hcb hcm
  · rw [if_neg hsub] at hsel
    cases hsel

/-- Witness for the C7 theorem: a concrete one-board pool with one hit
recorded and one miss recorded. -/
theorem select_fresh_witness :
    (0, 1) ∉ ({(0, 0)} : Finset Cell) ∧ (0, 1) ∉ ({(1, 1)} : Finset Cell) :=
  select_fresh [{(0, 0), (0, 1)}] {(0, 0)} {(1, 1)} (0, 1) (by decide) (by decide)


theorem repairStep_inr_covers (g : Bayes.Game) (s : Bayes.St) (ch : Nat → Nat) (idx : Nat)
    (ww : List (Option Nat × Finset Cell)) (final : Finset Cell) (k : Nat) (b : Finset Cell)
    (h : Bayes.repairStep g s ch idx ww final k = Except.ok (Sum.inr b)) :
    s.hits ⊆ b := by
  unfold Bayes.repairStep at h
  simp only [] at h
  split at h
  · cases h
  · split at h
    · split at h
      · cases h
      · split at h
        · cases h
        · split at h
          next hc =>
            injection h with h2
            injection h2 with h3
            exact h3 ▸ hc
          next => cases h
    · cases h

theorem repairPass_inr_covers (g : Bayes.Game) (s : Bayes.St) (ch : Nat → Nat) :
    ∀ (idxs : List Nat) (ww : List (Option Nat × Finset Cell)) (final : Finset Cell)
      (k : Nat) (b : Finset Cell),
      Bayes.repairPass g s ch idxs ww final k = Except.ok (Sum.inr b) → s.hits ⊆ b := by
  intro idxs
  induction idxs with
  | nil => intro ww final k b h; rw [Bayes.repairPass] at h; cases h
  | cons idx rest ih =>
    intro ww final k b h
    rw [Bayes.repairPass] at h
    cases hs : Bayes.repairStep g s ch idx ww final k with
    | error e => rw [hs] at h; cases h
    | ok r =>
      rw [hs] at h
      cases r with
      | inr b2 =>
        have hb : b2 = b := by injection h with h2; injection h2
        exact hb ▸ repairStep_inr_covers g s ch idx ww final k b2 hs
      | inl t =>
        rcases t with ⟨ww2, final2, k2⟩
        exact ih ww2 final2 k2 b h

theorem repairRounds_success_covers (g : Bayes.Game) (s : Bayes.St) (ch : Nat → Nat) :
    ∀ (n : Nat) (ww : List (Option Nat × Finset Cell)) (final : Finset Cell) (k : Nat)
      (b : Finset Cell),
      Bayes.repairRounds g s ch n ww final k = Except.ok (SelResult.success b) → s.hits ⊆ b := by
  intro n
  induction n with
  | zero => intro ww final k b h; rw [Bayes.repairRounds] at h; cases h
  | succ n ih =>
    intro ww final k b h
    rw [Bayes.repairRounds] at h
    cases hp : Bayes.repairPass g s ch (List.range ww.length) ww final k with
    | error e => rw [hp] at h; cases h
    | ok r =>
      rw [hp] at h
      cases r with
      | inr b2 =>
        have hb : b2 = b := by injection h with h2; injection h2
        exact hb ▸ repairPass_inr_covers g s ch (List.range ww.length) ww final k b2 hp
      | inl t =>
        rcases t with ⟨ww2, final2, k2⟩
        exact ih ww2 final2 k2 b h

theorem statsSubsetOfCard {final hits : Finset Cell}
    (h : ((final \ hits).card : Int) = (final.card : Int) - (hits.card : Int)) :
    hits ⊆ final := by
  have h1 : (final \ hits).card + (final ∩ hits).card = final.card := by
    rw [Finset.card_sdiff_add_card_inter]
  have h2 : (final ∩ hits).card ≤ hits.card := Finset.card_le_card Finset.inter_subset_right
  have h3 : (final ∩ hits).card = hits.card := by omega
  have h4 : final ∩ hits = hits :=
    Finset.eq_of_subset_of_card_le Finset.inter_subset_right (le_of_eq h3.symm)
  intro a ha
  have haa : a ∈ final ∩ hits := h4.symm ▸ ha
  exact (Finset.mem_inter.mp haa).1

theorem disjoint_iff_cardtest {final p : Finset Cell} :
    (final.card + p.card = (final ∪ p).card) ↔ Disjoint final p := by
  have hu := Finset.card_union_add_card_inter final p
  constructor
  · intro h
    have hz : (final ∩ p).card = 0 := by omega
    rw [Finset.card_eq_zero] at hz
    exact Finset.disjoint_iff_inter_eq_empty.mpr hz
  · intro h
    have hz : final ∩ p = ∅ := Finset.disjoint_iff_inter_eq_empty.mp h
    rw [hz, Finset.card_empty] at hu
    omega

theorem placeShip_none (cands : List Placement) (ch : Nat → Nat) (final : Finset Cell)
    (hne : cands ≠ []) (hnd : ∀ p ∈ cands, ¬ Disjoint final p) :
    ∀ (fuel k : Nat), Stats.placeShip cands ch final k fuel = Except.ok none := by
  intro fuel
  induction fuel with
  | zero =>
    intro k
    rw [Stats.placeShip]
    have hl : cands.length ≠ 0 := fun h => hne (List.length_eq_zero.mp h)
    rw [if_neg hl]
    have hmem : cands.getD (ch k % cands.length) ∅ ∈ cands := by
      have hlt : ch k % cands.length < cands.length :=
        Nat.mod_lt _ (Nat.pos_of_ne_zero hl)
      rw [List.getD_eq_getElem?_getD]
      rw [List.getElem?_eq_getElem hlt]
      simp
    rw [if_neg (fun hcard => hnd _ hmem (disjoint_iff_cardtest.mp hcard))]
  | succ fuel ih =>
    intro k
    rw [Stats.placeShip]
    have hl : cands.length ≠ 0 := fun h => hne (List.length_eq_zero.mp h)
    rw [if_neg hl]
    have hmem : cands.getD (ch k % cands.length) ∅ ∈ cands := by
      have hlt : ch k % cands.length < cands.length :=
        Nat.mod_lt _ (Nat.pos_of_ne_zero hl)
      rw [List.getD_eq_getElem?_getD]
      rw [List.getElem?_eq_getElem hlt]
      simp
    rw [if_neg (fun hcard => hnd _ hmem (disjoint_iff_cardtest.mp hcard))]
    exact ih (k + 1)

/-- C4: the conditional board sampler contract.  Every successful sample
of either variant is a superset of hits: the Bayesian attempt returns a
board only behind an explicit hits-coverage test, in the greedy exit and
in every repair exit, and the Statistics attempt returns one only behind
the equivalent length test len(final - hits) = len(final) - len(hits).
An attempt in which some ship has no candidate placement disjoint from
the cells committed so far signals failure instead of producing a board:
the Bayesian greedy phase returns the failure signal as soon as the
disjoint alternatives run empty, and the Statistics per-ship draw loop,
whose every draw fails the disjointness test, gives up at the modelled
time budget (any fuel) provided the candidate list is nonempty - an
invariant of reachable evidence states; on an empty list numpy randint
raises instead. -/
theorem sampler_contract :
    (∀ (g : Bayes.Game) (s : Bayes.St) (order : List Nat) (mustHappen : Finset Cell)
        (ch : Nat → Nat) (b : Finset Cell),
      Bayes.attemptOnce g s order mustHappen ch = Except.ok (SelResult.success b) →
        s.hits ⊆ b)
    ∧ (∀ (g : Bayes.Game) (s : Bayes.St) (order : List Nat) (mustHappen : Finset Cell)
        (ch : Nat → Nat),
      Bayes.greedy s ch order mustHappen [] 0 = Except.ok none →
        Bayes.attemptOnce g s order mustHappen ch = Except.ok SelResult.failEmpty)
    ∧ (∀ (s : Stats.St) (order : List Nat) (mustHappen : Finset Cell) (ch : Nat → Nat)
        (fuel : Nat) (b : Finset Cell),
      Stats.attemptOnce s order mustHappen ch fuel = Except.ok (SelResult.success b) →
        s.hits ⊆ b)
    ∧ (∀ (cands : List Placement) (ch : Nat → Nat) (final : Finset Cell) (k fuel : Nat),
      cands ≠ [] → (∀ p ∈ cands, ¬ Disjoint final p) →
        Stats.placeShip cands ch final k fuel = Except.ok none)
    ∧ (∀ (s : Stats.St) (order : List Nat) (mustHappen : Finset Cell) (ch : Nat → Nat)
        (fuel : Nat),
      Stats.placeShips s ch fuel order mustHappen 0 = Except.ok none →
        Stats.attemptOnce s order mustHappen ch fuel = Except.ok SelResult.failEmpty) := by
  refine ⟨?_, ?_, ?_, ?_, ?_⟩
  · intro g s order mustHappen ch b h
    unfold Bayes.attemptOnce at h
    cases hg : Bayes.greedy s ch order mustHappen [] 0 with
    | error e => rw [hg] at h; cases h
    | ok r =>
      rw [hg] at h
      cases r with
      | none => cases h
      | some t =>
        rcases t with ⟨ww, final, k⟩
        have h2 : (if s.hits ⊆ final then Except.ok (SelResult.success final) else Bayes.repairRounds g s ch 3 (ww.map (fun q => (some q.1, q.2)) ++ [(none, mustHappen)]) final k) = Except.ok (SelResult.success b) := h
        by_cases hc : s.hits ⊆ final
        · rw [if_pos hc] at h2
          have hb : final = b := by injection h2 with h3; injection h3
          exact hb ▸ hc
        · rw [if_neg hc] at h2
          exact repairRounds_success_covers g s ch 3 _ final k b h2
  · intro g s order mustHappen ch hg
    unfold Bayes.attemptOnce
    rw [hg]
  · intro s order mustHappen ch fuel b h
    unfold Stats.attemptOnce at h
    cases hp : Stats.placeShips s ch fuel order mustHappen 0 with
    | error e => rw [hp] at h; cases h
    | ok r =>
      rw [hp] at h
      cases r with
      | none => cases h
      | some t =>
        rcases t with ⟨final, k⟩
        have h2 : (if ((final \ s.hits).card : Int) = (final.card : Int) - (s.hits.card : Int) then Except.ok (SelResult.success final) else Except.ok SelResult.retry) = Except.ok (SelResult.success b) := h
        by_cases hc : ((final \ s.hits).card : Int) = (final.card : Int) - (s.hits.card : Int)
        · rw [if_pos hc] at h2
          have hb : final = b := by injection h2 with h3; injection h3
          exact hb ▸ statsSubsetOfCard hc
        · rw [if_neg hc] at h2
          cases h2
  · intro cands ch final k fuel hne hnd
    exact placeShip_none cands ch final hne hnd fuel k
  · intro s order mustHappen ch fuel hp
    unfold Stats.attemptOnce
    rw [hp]

/-- Witness for the C4 theorem: a concrete successful Bayesian attempt
reached through the repair phase, a concrete greedy failure, a concrete
successful Statistics attempt, a concrete exhausted draw loop and the
failure it signals. -/
theorem sampler_contract_witness :
    (Bayes.guessF g2B (Bayes.initSt g2B) (0, 0)).hits ⊆ ({(0, 0), (0, 1)} : Finset Cell)
    ∧ Bayes.attemptOnce g2B
        { Bayes.initSt g2B with cond := fun _ => [Bayes.CandEntry.place {(0, 0), (0, 1)}] }
        [0] {(0, 0)} (fun _ => 0) = Except.ok SelResult.failEmpty
    ∧ (Stats.guessF g2S (Stats.initSt g2S) (0, 0)).hits ⊆ ({(0, 0), (1, 0)} : Finset Cell)
    ∧ Stats.placeShip [{(0, 0), (0, 1)}] (fun _ => 0) {(0, 0)} 0 3 = Except.ok none
    ∧ Stats.attemptOnce { Stats.initSt g2S with cond := fun _ => [{(0, 0), (0, 1)}] }
        [0] {(0, 0)} (fun _ => 0) 3 = Except.ok SelResult.failEmpty :=
  ⟨sampler_contract.1 g2B (Bayes.guessF g2B (Bayes.initSt g2B) (0, 0)) [0] ∅ (fun _ => 1)
      {(0, 0), (0, 1)} (by decide),
   sampler_contract.2.1 g2B
      { Bayes.initSt g2B with cond := fun _ => [Bayes.CandEntry.place {(0, 0), (0, 1)}] }
      [0] {(0, 0)} (fun _ => 0) (by rfl),
   sampler_contract.2.2.1 (Stats.guessF g2S (Stats.initSt g2S) (0, 0)) [0] ∅ (fun _ => 0) 5
      {(0, 0), (1, 0)} (by decide),
   sampler_contract.2.2.2.1 [{(0, 0), (0, 1)}] (fun _ => 0) {(0, 0)} 0 3 (by decide) (by decide),
   sampler_contract.2.2.2.2 { Stats.initSt g2S with cond := fun _ => [{(0, 0), (0, 1)}] }
      [0] {(0, 0)} (fun _ => 0) 3 (by rfl)⟩


theorem grid_card_le (dim : Nat) : (grid dim).card ≤ dim * dim := by
  unfold grid
  refine le_trans Finset.card_image_le ?_
  rw [Finset.card_product]
  simp

theorem selectNext_ok_mem (pool : List (Finset Cell)) (hits : Finset Cell) (c : Cell)
    (hsel : selectNextE pool hits = Except.ok c) :
    c ∈ poolKeys pool ∧ c ∉ hits := by
  unfold selectNextE at hsel
  by_cases hsub : hits ⊆ poolKeys pool
  · rw [if_pos hsub] at hsel
    cases hcl : cellList (poolKeys pool \ hits) with
    | nil => rw [hcl] at hsel; cases hsel
    | cons x xs =>
      rw [hcl] at hsel
      injection hsel with hc
      have hmem : c ∈ x :: xs := hc ▸ foldl_max_mem (cnt pool) xs x
      rw [← hcl] at hmem
      have hsd := (cellList_mem _ c).mp hmem
      rw [Finset.mem_sdiff] at hsd
      exact hsd
  · rw [if_neg hsub] at hsel
    cases hsel

theorem selectNext_ok_of (pool : List (Finset Cell)) (hits : Finset Cell)
    (hsub : hits ⊆ poolKeys pool) (hne : (poolKeys pool \ hits).Nonempty) :
    ∃ c, selectNextE pool hits = Except.ok c := by
  obtain ⟨c0, hc0⟩ := hne
  have hcl0 : c0 ∈ cellList (poolKeys pool \ hits) := (cellList_mem _ c0).mpr hc0
  unfold selectNextE
  rw [if_pos hsub]
  cases hcl : cellList (poolKeys pool \ hits) with
  | nil => rw [hcl] at hcl0; cases hcl0
  | cons x xs => exact ⟨_, rfl⟩

/-- The autoplay loop terminates within dim * dim turns and its turn
count obeys the claimed bounds, by induction on the remaining fuel: every
turn's selection is a fresh on-grid cell, so the probed set grows
strictly inside the grid, and when the whole grid is probed the hits
equal the board and the exit test fires. -/
theorem playLoop_bounds (dim total : Nat) (board : Finset Cell)
    (pools : Finset Cell → Finset Cell → List (Finset Cell))
    (hbg : board ⊆ grid dim) (_hbc : board.card = total)
    (hpool : ∀ h m, EvInv dim board h m → h.card ≠ total →
      GoodPool dim total (pools h m) h m) :
    ∀ (fuel : Nat) (h m : Finset Cell), EvInv dim board h m →
      dim * dim + 1 ≤ fuel + (h ∪ m).card →
      ∃ n, playLoop board total pools fuel h m = some n ∧ total ≤ n ∧ n ≤ dim * dim := by
  intro fuel
  induction fuel with
  | zero =>
    intro h m hinv hfuel
    exfalso
    have hsub : h ∪ m ⊆ grid dim :=
      Finset.union_subset (hinv.1.trans hbg) hinv.2.2
    have := (Finset.card_le_card hsub).trans (grid_card_le dim)
    omega
  | succ fuel ih =>
    intro h m hinv hfuel
    have hdm : Disjoint h m :=
      Finset.disjoint_left.mpr (fun a ha hm => Finset.disjoint_left.mp hinv.2.1 hm (hinv.1 ha))
    by_cases hdone : h.card = total
    · refine ⟨h.card + m.card, ?_, ?_, ?_⟩
      · rw [playLoop, if_pos hdone]
      · omega
      · have hcu : (h ∪ m).card = h.card + m.card := Finset.card_union_of_disjoint hdm
        have hsub : h ∪ m ⊆ grid dim :=
          Finset.union_subset (hinv.1.trans hbg) hinv.2.2
        have := (Finset.card_le_card hsub).trans (grid_card_le dim)
        omega
    · obtain ⟨hne, hprops⟩ := hpool h m hinv hdone
      obtain ⟨b0, hb0⟩ := List.exists_mem_of_ne_nil _ hne
      obtain ⟨hhb0, hdb0, hgb0, hcb0⟩ := hprops b0 hb0
      have hsub : h ⊆ poolKeys (pools h m) :=
        fun a ha => (poolKeys_mem _ a).mpr ⟨b0, hb0, hhb0 ha⟩
      have hssub : h ⊂ b0 := by
        refine Finset.ssubset_iff_of_subset hhb0 |>.mpr ?_
        by_contra hno
        push_neg at hno
        have : b0 ⊆ h := hno
        have := Finset.card_le_card this
        have := Finset.card_le_card hhb0
        omega
      obtain ⟨c0, hc0b, hc0h⟩ := Finset.exists_of_ssubset hssub
      have hkne : (poolKeys (pools h m) \ h).Nonempty :=
        ⟨c0, Finset.mem_sdiff.mpr ⟨(poolKeys_mem _ c0).mpr ⟨b0, hb0, hc0b⟩, hc0h⟩⟩
      obtain ⟨c, hsel⟩ := selectNext_ok_of (pools h m) h hsub hkne
      obtain ⟨hck, hch⟩ := selectNext_ok_mem (pools h m) h c hsel
      obtain ⟨bc, hbc2, hcbc⟩ := (poolKeys_mem _ c).mp hck
      obtain ⟨hhbc, hdbc, hgbc, _⟩ := hprops bc hbc2
      have hcm : c ∉ m := Finset.disjoint_left.mp hdbc hcbc
      have hcg : c ∈ grid dim := hgbc hcbc
      have hcnotin : c ∉ h ∪ m := by
        rw [Finset.mem_union]
        exact fun hor => hor.elim hch hcm
      by_cases hcb : c ∈ board
      · have hinv2 : EvInv dim board (insert c h) m :=
          ⟨Finset.insert_subset hcb hinv.1, hinv.2.1, hinv.2.2⟩
        have hcard2 : dim * dim + 1 ≤ fuel + (insert c h ∪ m).card := by
          rw [Finset.insert_union, Finset.card_insert_of_not_mem hcnotin]
          omega
        obtain ⟨n, hn, hlo, hhi⟩ := ih (insert c h) m hinv2 hcard2
        refine ⟨n, ?_, hlo, hhi⟩
        have hred : playLoop board total pools (fuel + 1) h m
            = (if c ∈ board then playLoop board total pools fuel (insert c h) m
               else playLoop board total pools fuel h (insert c m)) := by
          rw [playLoop, if_neg hdone, hsel]
        rw [hred, if_pos hcb]
        exact hn
      · have hinv2 : EvInv dim board h (insert c m) :=
          ⟨hinv.1, Finset.disjoint_insert_left.mpr ⟨hcb, hinv.2.1⟩,
           Finset.insert_subset hcg hinv.2.2⟩
        have hcard2 : dim * dim + 1 ≤ fuel + (h ∪ insert c m).card := by
          rw [Finset.union_insert, Finset.card_insert_of_not_mem hcnotin]
          omega
        obtain ⟨n, hn, hlo, hhi⟩ := ih h (insert c m) hinv2 hcard2
        refine ⟨n, ?_, hlo, hhi⟩
        have hred : playLoop board total pools (fuel + 1) h m
            = (if c ∈ board then playLoop board total pools fuel (insert c h) m
               else playLoop board total pools fuel h (insert c m)) := by
          rw [playLoop, if_neg hdone, hsel]
        rw [hred, if_neg hcb]
        exact hn

/-- C9: BattleshipAutoplay.play (both variants share the loop shape)
terminates and returns the turn count, which equals the number of hits
plus misses and lies between the total ship length and the squared
dimension.  The per-turn randomized sampling of buildAggBoard is
abstracted as a pool function of the current evidence; the hypotheses
state exactly what the sampler delivers on every turn of a consistent
game (each pooled board covers the hits, avoids the misses, lies on the
grid and has the full number of ship cells - and sampling succeeded at
least once, pool nonempty).  Termination is relative to that: each
sampling call returning is what the unbounded retry loop guarantees only
almost surely. -/
theorem autoplay_bounds (g : Bayes.Game)
    (pools : Finset Cell → Finset Cell → List (Finset Cell))
    (hbg : Bayes.boardSet g ⊆ grid g.dim)
    (hbc : (Bayes.boardSet g).card = g.ships.sum)
    (hpool : ∀ h m, EvInv g.dim (Bayes.boardSet g) h m → h.card ≠ g.ships.sum →
      GoodPool g.dim g.ships.sum (pools h m) h m) :
    ∃ n, playLoop (Bayes.boardSet g) g.ships.sum pools (g.dim * g.dim + 1) ∅ ∅ = some n
      ∧ g.ships.sum ≤ n ∧ n ≤ g.dim * g.dim := by
  have hinv : EvInv g.dim (Bayes.boardSet g) ∅ ∅ :=
    ⟨Finset.empty_subset _, Finset.disjoint_empty_left _, Finset.empty_subset _⟩
  have hfuel : g.dim * g.dim + 1 ≤ (g.dim * g.dim + 1) + ((∅ ∪ ∅ : Finset Cell)).card := by
    omega
  exact playLoop_bounds g.dim g.ships.sum (Bayes.boardSet g) pools hbg hbc hpool
    (g.dim * g.dim + 1) ∅ ∅ hinv hfuel

/-- Witness for the C9 theorem: the concrete two by two game, with the
pool function returning the true board each turn; the loop finishes with
a turn count between 2 and 4. -/
theorem autoplay_bounds_witness :
    ∃ n, playLoop (Bayes.boardSet g2B) g2B.ships.sum (fun _ _ => [{(0, 0), (0, 1)}])
        (g2B.dim * g2B.dim + 1) ∅ ∅ = some n
      ∧ g2B.ships.sum ≤ n ∧ n ≤ g2B.dim * g2B.dim := by
  refine autoplay_bounds g2B (fun _ _ => [{(0, 0), (0, 1)}]) (by decide) (by decide) ?_
  intro h m hinv _
  refine ⟨by simp, ?_⟩
  intro b hb
  have hbeq : b = {(0, 0), (0, 1)} := by
    simpa using hb
  subst hbeq
  have hboard : Bayes.boardSet g2B = {(0, 0), (0, 1)} := by decide
  refine ⟨?_, ?_, by decide, by decide⟩
  · rw [← hboard]; exact hinv.1
  · rw [← hboard]
    exact hinv.2.1.symm


theorem mem_boardSet (g : Bayes.Game) (c : Cell) :
    c ∈ Bayes.boardSet g ↔ ∃ b ∈ g.boats, c ∈ b.2 := by
  unfold Bayes.boardSet
  induction g.boats with
  | nil => simp
  | cons b rest ih =>
    simp only [List.foldr_cons, Finset.mem_union, List.mem_cons]
    rw [ih]
    constructor
    · rintro (hc | ⟨b2, hb2, hc⟩)
      · exact ⟨b, Or.inl rfl, hc⟩
      · exact ⟨b2, Or.inr hb2, hc⟩
    · rintro ⟨b2, hb2 | hb2, hc⟩
      · exact Or.inl (hb2 ▸ hc)
      · exact Or.inr ⟨b2, hb2, hc⟩

theorem trueP_subset_board (g : Bayes.Game) (hGT : Bayes.GT g) (k : Nat)
    (hk : k < g.numShips) : Bayes.trueP g k ⊆ Bayes.boardSet g := by
  obtain ⟨b, hb, hbk⟩ := hGT.2.2.1 k hk
  intro c hc
  rw [mem_boardSet]
  refine ⟨b, hb, ?_⟩
  have h1 := (hGT.2.1 b hb).1
  rw [← hbk, h1] at hc
  exact hc

theorem trueP_disjoint (g : Bayes.Game) (hGT : Bayes.GT g) (k j : Nat) (hkj : k ≠ j)
    (hk : k < g.numShips) (hj : j < g.numShips) :
    Disjoint (Bayes.trueP g k) (Bayes.trueP g j) := by
  obtain ⟨bk, hbk, hbk1⟩ := hGT.2.2.1 k hk
  obtain ⟨bj, hbj, hbj1⟩ := hGT.2.2.1 j hj
  have h1 := (hGT.2.1 bk hbk).1
  have h2 := (hGT.2.1 bj hbj).1
  rw [← hbk1, ← hbj1] at hkj
  have hne : bk ≠ bj := fun he => hkj (he ▸ rfl)
  have hpd : Disjoint bk.2 bj.2 := by
    have hsymm : Symmetric (fun b1 b2 : Nat × Placement => Disjoint b1.2 b2.2) :=
      fun _ _ h => h.symm
    exact List.Pairwise.forall hsymm hGT.2.2.2 hbk hbj hne
  rw [hbk1] at h1
  rw [hbj1] at h2
  rw [h1, h2]
  exact hpd

theorem trueP_disjoint_hitsSunk (g : Bayes.Game) (s : Bayes.St) (hGT : Bayes.GT g)
    (hinv : Bayes.Inv0 g s) (k : Nat) (hk : k < g.numShips) (hns : s.sunk k = false) :
    Disjoint (Bayes.trueP g k) s.hitsSunk := by
  rw [Finset.disjoint_right]
  intro c hc hck
  obtain ⟨j, hj, hjs, hcj⟩ := hinv.2.2.2.2.1 c hc
  have hkj : k ≠ j := fun he => by rw [he, hjs] at hns; cases hns
  exact Finset.disjoint_left.mp (trueP_disjoint g hGT k j hkj hk hj) hck hcj

theorem sinkStep_inv0 (g : Bayes.Game) (s : Bayes.St) (b : Nat × Placement)
    (hb : b ∈ g.boats) (hGT : Bayes.GT g) (hinv : Bayes.Inv0 g s) :
    Bayes.Inv0 g (Bayes.sinkStep s b) := by
  obtain ⟨htp, hbn, _⟩ := hGT.2.1 b hb
  unfold Bayes.Inv0 at hinv ⊢
  obtain ⟨h1, h2, h3, h4, h5, h6, h7⟩ := hinv
  unfold Bayes.sinkStep
  split
  next hsub =>
    refine ⟨h1, h2, ?_, ?_, ?_, ?_, ?_⟩
    · intro k hk hsk
      simp only [Function.update_apply] at hsk
      by_cases hkb : k = b.1
      · subst hkb; rw [htp]; exact hsub
      · rw [if_neg hkb] at hsk
        exact h3 k hk hsk
    · intro k hk hsk
      simp only [Function.update_apply] at hsk
      by_cases hkb : k = b.1
      · subst hkb; rw [htp]; exact fun c hc => Finset.mem_union_right _ hc
      · rw [if_neg hkb] at hsk
        exact (h4 k hk hsk).trans Finset.subset_union_left
    · intro c hc
      rcases Finset.mem_union.mp hc with hcs | hcb
      · obtain ⟨k, hk, hsk, hck⟩ := h5 c hcs
        refine ⟨k, hk, ?_, hck⟩
        simp only [Function.update_apply]
        by_cases hkb : k = b.1
        · rw [if_pos hkb]
        · rw [if_neg hkb]; exact hsk
      · exact ⟨b.1, hbn, by simp [Function.update_apply], htp ▸ hcb⟩
    · intro k hk hsk
      simp only [Function.update_apply] at hsk ⊢
      by_cases hkb : k = b.1
      · rw [if_pos hkb] at hsk; cases hsk
      · rw [if_neg hkb] at hsk
        rw [if_neg hkb]
        exact h6 k hk hsk
    · intro k hk hsk e he
      simp only [Function.update_apply] at hsk he
      by_cases hkb : k = b.1
      · rw [if_pos hkb] at hsk; cases hsk
      · rw [if_neg hkb] at hsk
        rw [if_neg hkb] at he
        exact h7 k hk hsk e he
  next => exact ⟨h1, h2, h3, h4, h5, h6, h7⟩

theorem sink_fold_inv0 (g : Bayes.Game) (hGT : Bayes.GT g) :
    ∀ (bl : List (Nat × Placement)) (s : Bayes.St), (∀ b ∈ bl, b ∈ g.boats) →
      Bayes.Inv0 g s → Bayes.Inv0 g (bl.foldl Bayes.sinkStep s) := by
  intro bl
  induction bl with
  | nil => intro s _ hinv; exact hinv
  | cons b rest ih =>
    intro s hmem hinv
    simp only [List.foldl_cons]
    exact ih (Bayes.sinkStep s b) (fun b2 hb2 => hmem b2 (List.mem_cons_of_mem _ hb2))
      (sinkStep_inv0 g s b (hmem b (List.mem_cons_self _ _)) hGT hinv)

theorem sinkPhase_inv0 (g : Bayes.Game) (s : Bayes.St) (hGT : Bayes.GT g)
    (hinv : Bayes.Inv0 g s) : Bayes.Inv0 g (Bayes.sinkPhase g s) :=
  sink_fold_inv0 g hGT g.boats s (fun _ hb => hb) hinv

theorem pruneNames_keeps :
    ∀ (names : List Nat) (s s' : Bayes.St), Bayes.pruneNames s names = Except.ok s' →
      names.Nodup →
      ∀ k ∈ names, s.sunk k = false → ∀ p, Bayes.CandEntry.place p ∈ s.cond k →
        Disjoint s.misses p → Disjoint p s.hitsSunk →
        Bayes.CandEntry.place p ∈ s'.cond k := by
  intro names
  induction names with
  | nil => intro s s' h _ k hk; simp at hk
  | cons j rest ih =>
    intro s s' h hnd k hk hns p hp hd1 hd2
    rw [Bayes.pruneNames] at h
    by_cases hj : s.sunk j
    · rw [if_pos hj] at h
      rcases List.mem_cons.mp hk with rfl | hkr
      · rw [hj] at hns; cases hns
      · exact ih s s' h (List.Nodup.of_cons hnd) k hkr hns p hp hd1 hd2
    · rw [if_neg hj] at h
      cases hpl : Bayes.pruneList s.misses s.hitsSunk (s.cond j) with
      | error e => rw [hpl] at h; cases h
      | ok l =>
        rw [hpl] at h
        have h2 : Bayes.pruneNames { s with cond := Function.update s.cond j l, condNum := Function.update s.condNum j l.length } rest = Except.ok s' := h
        rcases List.mem_cons.mp hk with rfl | hkr
        · have hjr : k ∉ rest := (List.nodup_cons.mp hnd).1
          have hout := pruneNames_cond_outside rest _ s' h2 k hjr
          rw [hout]
          simp only [Function.update_apply, if_pos rfl]
          exact pruneList_keeps _ _ hpl hp hd1 hd2
        · have hkj : k ≠ j := fun he => (List.nodup_cons.mp hnd).1 (he ▸ hkr)
          refine ih _ s' h2 (List.nodup_cons.mp hnd).2 k hkr hns p ?_ hd1 hd2
          simp only [Function.update_apply, if_neg hkj]
          exact hp

theorem prune_restores (g : Bayes.Game) (s1 s2 : Bayes.St)
    (hpn : Bayes.pruneNames s1 g.names = Except.ok s2)
    (hGT : Bayes.GT g) (hinv : Bayes.Inv0 g s1) : Bayes.InvR g s2 := by
  have hf := pruneNames_frame g.names s1 s2 hpn
  obtain ⟨hfh, hfm, hfs, hfk, _, _, _⟩ := hf
  obtain ⟨h1, h2, h3, h4, h5, h6, h7⟩ := hinv
  have hnames : ∀ k, k < g.numShips → k ∈ g.names := by
    intro k hk
    simpa [Bayes.Game.names] using List.mem_range.mpr hk
  constructor
  · refine ⟨hfh ▸ h1, hfm ▸ h2, ?_, ?_, ?_, ?_, ?_⟩
    · intro k hk hsk
      rw [hfk] at hsk
      rw [hfh]
      exact h3 k hk hsk
    · intro k hk hsk
      rw [hfk] at hsk
      rw [hfs]
      exact h4 k hk hsk
    · intro c hc
      rw [hfs] at hc
      obtain ⟨k, hk, hsk, hck⟩ := h5 c hc
      exact ⟨k, hk, by rw [hfk]; exact hsk, hck⟩
    · intro k hk hsk
      rw [hfk] at hsk
      refine pruneNames_keeps g.names s1 s2 hpn ?_ k (hnames k hk) hsk _ (h6 k hk hsk) ?_ ?_
      · simpa [Bayes.Game.names] using List.nodup_range g.ships.length
      · exact Finset.disjoint_of_subset_right (trueP_subset_board g hGT k hk) h2
      · exact trueP_disjoint_hitsSunk g s1 hGT ⟨h1, h2, h3, h4, h5, h6, h7⟩ k hk hsk
    · intro k hk hsk e he
      rw [hfk] at hsk
      obtain ⟨p, hep, _, _⟩ := pruneNames_cond_spec g.names s1 s2 hpn k (hnames k hk) hsk e he
      exact ⟨p, hep⟩
  · intro k hk hsk p hp
    rw [hfk] at hsk
    obtain ⟨p', hep, _, hdp⟩ := pruneNames_cond_spec g.names s1 s2 hpn k (hnames k hk) hsk _ hp
    have hpp : p = p' := by injection hep
    rw [hfs]
    exact hpp ▸ hdp

theorem uo_step_keeps (g : Bayes.Game) (t : Bayes.St) (h : Cell) (hGT : Bayes.GT g)
    (hh : h ∈ t.hits) (H1 : t.hits ⊆ Bayes.boardSet g)
    (H2 : ∀ k, k < g.numShips → t.sunk k = false →
      Bayes.CandEntry.place (Bayes.trueP g k) ∈ t.cond k)
    (H3 : ∀ k, k < g.numShips → t.sunk k = false →
      ∀ p, Bayes.CandEntry.place p ∈ t.cond k → Disjoint p t.hitsSunk)
    (H4 : ∀ k, k < g.numShips → t.sunk k = true → Bayes.trueP g k ⊆ t.hitsSunk) :
    ∀ k, k < g.numShips → t.sunk k = false →
      Bayes.CandEntry.place (Bayes.trueP g k) ∈ (Bayes.uniqueOwnerStep g t h).cond k := by
  intro k hk hns
  unfold Bayes.uniqueOwnerStep
  cases ho : Bayes.owners g t h with
  | nil => exact H2 k hk hns
  | cons k0 tl =>
    cases tl with
    | cons k1 tl2 => exact H2 k hk hns
    | nil =>
      by_cases hkk : k = k0
      · subst hkk
        show Bayes.CandEntry.place (Bayes.trueP g k)
          ∈ Function.update t.cond k ((t.cond k).filter (Bayes.entryCovers h)) k
        simp only [Function.update_apply, if_pos rfl]
        refine List.mem_filter.mpr ⟨H2 k hk hns, ?_⟩
        have hmemT : h ∈ Bayes.trueP g k := by
          have hhb : h ∈ Bayes.boardSet g := H1 hh
          obtain ⟨b, hbmem, hhb2⟩ := (mem_boardSet g h).mp hhb
          obtain ⟨htp, hbn, _⟩ := hGT.2.1 b hbmem
          by_cases hjs : t.sunk b.1 = true
          · exfalso
            have hhs : h ∈ t.hitsSunk := H4 b.1 hbn hjs (htp ▸ hhb2)
            have hkmem : k ∈ Bayes.owners g t h := ho ▸ List.mem_cons_self _ _
            unfold Bayes.owners at hkmem
            have hany := (List.mem_filter.mp hkmem).2
            rw [List.any_eq_true] at hany
            obtain ⟨e, he, hcov⟩ := hany
            cases e with
            | cell c => simp [Bayes.entryCovers] at hcov
            | place p =>
              have hhp : h ∈ p := by simpa [Bayes.entryCovers] using hcov
              exact Finset.disjoint_left.mp (H3 k hk hns p he) hhp hhs
          · have hjns : t.sunk b.1 = false := by
              cases hb : t.sunk b.1
              · rfl
              · exact absurd hb hjs
            have hjc := H2 b.1 hbn hjns
            have hjo : b.1 ∈ Bayes.owners g t h := by
              unfold Bayes.owners
              refine List.mem_filter.mpr ⟨?_, ?_⟩
              · simpa [Bayes.Game.names] using List.mem_range.mpr hbn
              · rw [List.any_eq_true]
                refine ⟨_, hjc, ?_⟩
                simp only [Bayes.entryCovers]
                rw [decide_eq_true_iff]
                rw [htp]
                exact hhb2
            rw [ho] at hjo
            have hjk : b.1 = k := by simpa using hjo
            rw [← hjk, htp]
            exact hhb2
        simp only [Bayes.entryCovers]
        rw [decide_eq_true_iff]
        exact hmemT
      · show Bayes.CandEntry.place (Bayes.trueP g k)
          ∈ Function.update t.cond k0 ((t.cond k0).filter (Bayes.entryCovers h)) k
        simp only [Function.update_apply, if_neg hkk]
        exact H2 k hk hns

theorem uo_fold_keeps (g : Bayes.Game) (hGT : Bayes.GT g) :
    ∀ (hl : List Cell) (t : Bayes.St), (∀ x ∈ hl, x ∈ t.hits) →
      t.hits ⊆ Bayes.boardSet g →
      (∀ k, k < g.numShips → t.sunk k = false →
        Bayes.CandEntry.place (Bayes.trueP g k) ∈ t.cond k) →
      (∀ k, k < g.numShips → t.sunk k = false →
        ∀ p, Bayes.CandEntry.place p ∈ t.cond k → Disjoint p t.hitsSunk) →
      (∀ k, k < g.numShips → t.sunk k = true → Bayes.trueP g k ⊆ t.hitsSunk) →
      ∀ k, k < g.numShips → t.sunk k = false →
        Bayes.CandEntry.place (Bayes.trueP g k) ∈ (hl.foldl (Bayes.uniqueOwnerStep g) t).cond k := by
  intro hl
  induction hl with
  | nil => intro t _ _ H2 _ _ k hk hns; exact H2 k hk hns
  | cons x rest ih =>
    intro t hmem H1 H2 H3 H4 k hk hns
    simp only [List.foldl_cons]
    have hfr := uniqueOwnerStep_frame g t x
    refine ih (Bayes.uniqueOwnerStep g t x) ?_ ?_ ?_ ?_ ?_ k hk ?_
    · intro y hy
      rw [hfr.1]
      exact hmem y (List.mem_cons_of_mem _ hy)
    · rw [hfr.1]
      exact H1
    · intro j hj hjs
      rw [hfr.2.2.2.1] at hjs
      exact uo_step_keeps g t x hGT (hmem x (List.mem_cons_self _ _)) H1 H2 H3 H4 j hj hjs
    · intro j hj hjs p hp
      rw [hfr.2.2.2.1] at hjs
      rw [hfr.2.2.1]
      exact H3 j hj hjs p (uniqueOwnerStep_cond_sub g t x j _ hp)
    · intro j hj hjs
      rw [hfr.2.2.2.1] at hjs
      rw [hfr.2.2.1]
      exact H4 j hj hjs
    · rw [hfr.2.2.2.1]
      exact hns

theorem propagate_invR (g : Bayes.Game) (s2 : Bayes.St) (hGT : Bayes.GT g)
    (hinv : Bayes.InvR g s2) : Bayes.InvR g (Bayes.propagatePhase g s2) := by
  obtain ⟨⟨h1, h2, h3, h4, h5, h6, h7⟩, h8⟩ := hinv
  have hfr := propagate_frame g s2
  constructor
  · refine ⟨hfr.1 ▸ h1, hfr.2.1 ▸ h2, ?_, ?_, ?_, ?_, ?_⟩
    · intro k hk hsk
      rw [hfr.2.2.2.1] at hsk
      rw [hfr.1]
      exact h3 k hk hsk
    · intro k hk hsk
      rw [hfr.2.2.2.1] at hsk
      rw [hfr.2.2.1]
      exact h4 k hk hsk
    · intro c hc
      rw [hfr.2.2.1] at hc
      obtain ⟨k, hk, hsk, hck⟩ := h5 c hc
      exact ⟨k, hk, by rw [hfr.2.2.2.1]; exact hsk, hck⟩
    · intro k hk hsk
      rw [hfr.2.2.2.1] at hsk
      exact uo_fold_keeps g hGT (cellList s2.hits) s2
        (fun x hx => (cellList_mem _ x).mp hx) h1 h6 h8 h4 k hk hsk
    · intro k hk hsk e he
      rw [hfr.2.2.2.1] at hsk
      exact h7 k hk hsk e (propagate_cond_sub g s2 k e he)
  · intro k hk hsk p hp
    rw [hfr.2.2.2.1] at hsk
    rw [hfr.2.2.1]
    exact h8 k hk hsk p (propagate_cond_sub g s2 k _ hp)

theorem refresh_invR (g : Bayes.Game) (s : Bayes.St) (hGT : Bayes.GT g)
    (hinv : Bayes.InvR g s) : Bayes.InvR g (Bayes.afterRefresh g s) := by
  unfold Bayes.afterRefresh
  cases hu : Bayes.updateOrientations g s with
  | error e => exact hinv
  | ok s3 =>
    unfold Bayes.updateOrientations at hu
    cases hpn : Bayes.pruneNames (Bayes.sinkPhase g s) g.names with
    | error e => rw [hpn] at hu; cases hu
    | ok s2 =>
      rw [hpn] at hu
      injection hu with hu
      subst hu
      have hinv1 : Bayes.Inv0 g (Bayes.sinkPhase g s) := sinkPhase_inv0 g s hGT hinv.1
      have hinv2 : Bayes.InvR g s2 := prune_restores g (Bayes.sinkPhase g s) s2 hpn hGT hinv1
      have hinv3 : Bayes.InvR g (Bayes.propagatePhase g s2) := propagate_invR g s2 hGT hinv2
      exact hinv3

theorem guess_invR (g : Bayes.Game) (s : Bayes.St) (c : Cell)
    (hinv : Bayes.InvR g s) : Bayes.InvR g (Bayes.guessF g s c) := by
  obtain ⟨⟨h1, h2, h3, h4, h5, h6, h7⟩, h8⟩ := hinv
  unfold Bayes.guessF
  by_cases hc : c ∈ Bayes.boardSet g
  · rw [if_pos hc]
    exact ⟨⟨Finset.insert_subset hc h1, h2,
      fun k hk hsk => (h3 k hk hsk).trans (Finset.subset_insert _ _),
      h4, h5, h6, h7⟩, h8⟩
  · rw [if_neg hc]
    exact ⟨⟨h1, Finset.disjoint_insert_left.mpr ⟨hc, h2⟩, h3, h4, h5, h6, h7⟩, h8⟩

theorem init_invR (g : Bayes.Game) (hGT : Bayes.GT g) : Bayes.InvR g (Bayes.initSt g) := by
  have htc : ∀ k, k < g.numShips →
      Bayes.trueP g k ∈ Bayes.catalog g.dim (g.shipLen k) := by
    intro k hk
    obtain ⟨b, hb, hbk⟩ := hGT.2.2.1 k hk
    obtain ⟨htp, _, hcat⟩ := hGT.2.1 b hb
    rw [← hbk, htp]
    exact hcat
  constructor
  · refine ⟨Finset.empty_subset _, Finset.disjoint_empty_left _, ?_, ?_, ?_, ?_, ?_⟩
    · intro k hk hsk; cases hsk
    · intro k hk hsk; cases hsk
    · intro c hc; cases Finset.not_mem_empty c hc
    · intro k hk _
      exact List.mem_map_of_mem Bayes.CandEntry.place (htc k hk)
    · intro k hk _ e he
      obtain ⟨p, _, hpe⟩ := List.mem_map.mp he
      exact ⟨p, hpe.symm⟩
  · intro k hk _ p _
    exact Finset.disjoint_empty_right p

theorem reach_invR (g : Bayes.Game) (hGT : Bayes.GT g) :
    ∀ s, Bayes.Reach g s → Bayes.InvR g s := by
  intro s hr
  induction hr with
  | init => exact init_invR g hGT
  | guess s2 c _ ih => exact guess_invR g s2 c ih
  | refresh s2 _ ih => exact refresh_invR g s2 hGT ih

theorem stats_mem_boardSet (g : Stats.Game) (c : Cell) :
    c ∈ Stats.boardSet g ↔ ∃ b ∈ g.boats, c ∈ b.2 := by
  unfold Stats.boardSet
  induction g.boats with
  | nil => simp
  | cons b rest ih =>
    simp only [List.foldr_cons, Finset.mem_union, List.mem_cons]
    rw [ih]
    constructor
    · rintro (hc | ⟨b2, hb2, hc⟩)
      · exact ⟨b, Or.inl rfl, hc⟩
      · exact ⟨b2, Or.inr hb2, hc⟩
    · rintro ⟨b2, hb2 | hb2, hc⟩
      · exact Or.inl (hb2 ▸ hc)
      · exact Or.inr ⟨b2, hb2, hc⟩

theorem stats_trueP_subset_board (g : Stats.Game) (hGT : Stats.GT g) (k : Nat)
    (hk : k < g.numShips) : Stats.trueP g k ⊆ Stats.boardSet g := by
  obtain ⟨b, hb, hbk⟩ := hGT.2.2.1 k hk
  intro c hc
  rw [stats_mem_boardSet]
  refine ⟨b, hb, ?_⟩
  have h1 := (hGT.2.1 b hb).1
  rw [← hbk, h1] at hc
  exact hc

theorem stats_trueP_disjoint (g : Stats.Game) (hGT : Stats.GT g) (k j : Nat) (hkj : k ≠ j)
    (hk : k < g.numShips) (hj : j < g.numShips) :
    Disjoint (Stats.trueP g k) (Stats.trueP g j) := by
  obtain ⟨bk, hbk, hbk1⟩ := hGT.2.2.1 k hk
  obtain ⟨bj, hbj, hbj1⟩ := hGT.2.2.1 j hj
  have h1 := (hGT.2.1 bk hbk).1
  have h2 := (hGT.2.1 bj hbj).1
  rw [← hbk1, ← hbj1] at hkj
  have hne : bk ≠ bj := fun he => hkj (he ▸ rfl)
  have hpd : Disjoint bk.2 bj.2 := by
    have hsymm : Symmetric (fun b1 b2 : Nat × Placement => Disjoint b1.2 b2.2) :=
      fun _ _ h => h.symm
    exact List.Pairwise.forall hsymm hGT.2.2.2 hbk hbj hne
  rw [hbk1] at h1
  rw [hbj1] at h2
  rw [h1, h2]
  exact hpd

theorem stats_trueP_disjoint_hitsSunk (g : Stats.Game) (s : Stats.St) (hGT : Stats.GT g)
    (hinv : Stats.Inv0 g s) (k : Nat) (hk : k < g.numShips) (hns : s.sunk k = false) :
    Disjoint (Stats.trueP g k) s.hitsSunk := by
  rw [Finset.disjoint_right]
  intro c hc hck
  obtain ⟨j, hj, hjs, hcj⟩ := hinv.2.2.2.2.1 c hc
  have hkj : k ≠ j := fun he => by rw [he, hjs] at hns; cases hns
  exact Finset.disjoint_left.mp (stats_trueP_disjoint g hGT k j hkj hk hj) hck hcj

theorem vertRun_card (L i j : Nat) : (vertRun L i j).card = L := by
  unfold vertRun
  rw [Finset.card_image_of_injective _ ?_, Finset.card_range]
  intro a b hab
  simp only [Prod.mk.injEq] at hab
  omega

theorem horizRun_card (L i j : Nat) : (horizRun L i j).card = L := by
  unfold horizRun
  rw [Finset.card_image_of_injective _ ?_, Finset.card_range]
  intro a b hab
  simp only [Prod.mk.injEq] at hab
  omega

theorem stats_catalog_card (dim L : Nat) (p : Placement) (hp : p ∈ Stats.catalog dim L) :
    p.card = L := by
  unfold Stats.catalog at hp
  rw [List.mem_flatMap] at hp
  obtain ⟨i, _, hp⟩ := hp
  rw [List.mem_flatMap] at hp
  obtain ⟨j, _, hp⟩ := hp
  rcases List.mem_cons.mp hp with rfl | hp2
  · exact vertRun_card L i j
  · rcases List.mem_cons.mp hp2 with rfl | hp3
    · exact horizRun_card L i j
    · cases hp3

theorem union_card_eq_iff_subset {p h : Finset Cell} :
    (p ∪ h).card = h.card ↔ p ⊆ h := by
  constructor
  · intro hc
    have heq : h = p ∪ h :=
      Finset.eq_of_subset_of_card_le Finset.subset_union_right (le_of_eq hc)
    intro a ha
    rw [heq]
    exact Finset.mem_union_left h ha
  · intro hsub
    rw [Finset.union_eq_right.mpr hsub]

theorem stats_sinkStep_inv0 (g : Stats.Game) (s : Stats.St) (b : Nat × Placement)
    (hb : b ∈ g.boats) (hGT : Stats.GT g) (hinv : Stats.Inv0 g s) :
    Stats.Inv0 g (Stats.sinkStep s b) := by
  obtain ⟨htp, hbn, _⟩ := hGT.2.1 b hb
  unfold Stats.Inv0 at hinv ⊢
  obtain ⟨h1, h2, h3, h4, h5, h6⟩ := hinv
  unfold Stats.sinkStep
  split
  next hcard =>
    have hsub : b.2 ⊆ s.hits := union_card_eq_iff_subset.mp hcard
    refine ⟨h1, h2, ?_, ?_, ?_, ?_⟩
    · intro k hk hsk
      simp only [Function.update_apply] at hsk
      by_cases hkb : k = b.1
      · subst hkb; rw [htp]; exact hsub
      · rw [if_neg hkb] at hsk
        exact h3 k hk hsk
    · intro k hk hsk
      simp only [Function.update_apply] at hsk
      by_cases hkb : k = b.1
      · subst hkb; rw [htp]; exact fun c hc => Finset.mem_union_right _ hc
      · rw [if_neg hkb] at hsk
        exact (h4 k hk hsk).trans Finset.subset_union_left
    · intro c hc
      rcases Finset.mem_union.mp hc with hcs | hcb
      · obtain ⟨k, hk, hsk, hck⟩ := h5 c hcs
        refine ⟨k, hk, ?_, hck⟩
        simp only [Function.update_apply]
        by_cases hkb : k = b.1
        · rw [if_pos hkb]
        · rw [if_neg hkb]; exact hsk
      · exact ⟨b.1, hbn, by simp [Function.update_apply], htp ▸ hcb⟩
    · intro k hk hsk
      simp only [Function.update_apply] at hsk ⊢
      by_cases hkb : k = b.1
      · rw [if_pos hkb] at hsk; cases hsk
      · rw [if_neg hkb] at hsk
        rw [if_neg hkb]
        exact h6 k hk hsk
  next => exact ⟨h1, h2, h3, h4, h5, h6⟩

theorem stats_sink_fold_inv0 (g : Stats.Game) (hGT : Stats.GT g) :
    ∀ (bl : List (Nat × Placement)) (s : Stats.St), (∀ b ∈ bl, b ∈ g.boats) →
      Stats.Inv0 g s → Stats.Inv0 g (bl.foldl Stats.sinkStep s) := by
  intro bl
  induction bl with
  | nil => intro s _ hinv; exact hinv
  | cons b rest ih =>
    intro s hmem hinv
    simp only [List.foldl_cons]
    exact ih (Stats.sinkStep s b) (fun b2 hb2 => hmem b2 (List.mem_cons_of_mem _ hb2))
      (stats_sinkStep_inv0 g s b (hmem b (List.mem_cons_self _ _)) hGT hinv)

theorem keepConfig_trueP {m hs : Finset Cell} {L : Nat} {p : Placement}
    (hcard : p.card = L) (hd1 : Disjoint m p) (hd2 : Disjoint p hs) :
    Stats.keepConfig m hs L hs.card p = true := by
  unfold Stats.keepConfig
  rw [Bool.and_eq_true, decide_eq_true_iff, decide_eq_true_iff]
  constructor
  · rw [Finset.card_union_of_disjoint hd1, hcard]
  · rw [Finset.card_union_of_disjoint hd2, hcard]

theorem stats_pruneNames_keeps :
    ∀ (names : List Nat) (g : Stats.Game) (n : Nat) (s : Stats.St), names.Nodup →
      ∀ k ∈ names, s.sunk k = false → ∀ p, p ∈ s.cond k →
        Stats.keepConfig s.misses s.hitsSunk (g.shipLen k) n p = true →
        p ∈ (Stats.pruneNames g n s names).cond k := by
  intro names
  induction names with
  | nil => intro g n s _ k hk; simp at hk
  | cons j rest ih =>
    intro g n s hnd k hk hns p hp hkeep
    rw [Stats.pruneNames]
    by_cases hj : s.sunk j
    · rw [if_pos hj]
      rcases List.mem_cons.mp hk with rfl | hkr
      · rw [hj] at hns; cases hns
      · exact ih g n s (List.Nodup.of_cons hnd) k hkr hns p hp hkeep
    · rw [if_neg hj]
      rcases List.mem_cons.mp hk with rfl | hkr
      · have hjr : k ∉ rest := (List.nodup_cons.mp hnd).1
        rw [stats_pruneNames_cond_outside rest g n _ k hjr]
        simp only [Function.update_apply, if_pos rfl]
        exact List.mem_filter.mpr ⟨hp, hkeep⟩
      · have hkj : k ≠ j := fun he => (List.nodup_cons.mp hnd).1 (he ▸ hkr)
        refine ih g n { s with cond := Function.update s.cond j ((s.cond j).filter (Stats.keepConfig s.misses s.hitsSunk (g.shipLen j) n)), condNum := Function.update s.condNum j ((s.cond j).filter (Stats.keepConfig s.misses s.hitsSunk (g.shipLen j) n)).length } (List.nodup_cons.mp hnd).2 k hkr hns p ?_ hkeep
        simp only [Function.update_apply, if_neg hkj]
        exact hp

theorem stats_trueP_catalog (g : Stats.Game) (hGT : Stats.GT g) (k : Nat)
    (hk : k < g.numShips) :
    Stats.trueP g k ∈ Stats.catalog g.dim (g.shipLen k) := by
  obtain ⟨b, hb, hbk⟩ := hGT.2.2.1 k hk
  obtain ⟨htp, _, hcat⟩ := hGT.2.1 b hb
  rw [← hbk, htp]
  exact hcat

theorem stats_update_inv (g : Stats.Game) (s : Stats.St) (hGT : Stats.GT g)
    (hinv : Stats.Inv0 g s) : Stats.Inv0 g (Stats.updateOrientations g s) := by
  have hinv1 : Stats.Inv0 g (Stats.sinkPhase g s) :=
    stats_sink_fold_inv0 g hGT g.boats s (fun _ hb => hb) hinv
  have heq : Stats.updateOrientations g s
      = Stats.pruneNames g (Stats.sinkPhase g s).hitsSunk.card (Stats.sinkPhase g s)
          g.names := rfl
  rw [heq]
  have hf := stats_pruneNames_frame g.names g (Stats.sinkPhase g s).hitsSunk.card
    (Stats.sinkPhase g s)
  obtain ⟨hfh, hfm, hfs, hfk⟩ := hf
  obtain ⟨h1, h2, h3, h4, h5, h6⟩ := hinv1
  have hnames : ∀ k, k < g.numShips → k ∈ g.names := by
    intro k hk
    simpa [Stats.Game.names] using List.mem_range.mpr hk
  refine ⟨hfh ▸ h1, hfm ▸ h2, ?_, ?_, ?_, ?_⟩
  · intro k hk hsk
    rw [hfk] at hsk
    rw [hfh]
    exact h3 k hk hsk
  · intro k hk hsk
    rw [hfk] at hsk
    rw [hfs]
    exact h4 k hk hsk
  · intro c hc
    rw [hfs] at hc
    obtain ⟨k, hk, hsk, hck⟩ := h5 c hc
    exact ⟨k, hk, by rw [hfk]; exact hsk, hck⟩
  · intro k hk hsk
    rw [hfk] at hsk
    refine stats_pruneNames_keeps g.names g (Stats.sinkPhase g s).hitsSunk.card
      (Stats.sinkPhase g s) ?_ k (hnames k hk) hsk _ (h6 k hk hsk) ?_
    · simpa [Stats.Game.names] using List.nodup_range g.ships.length
    · refine keepConfig_trueP ?_ ?_ ?_
      · exact stats_catalog_card g.dim (g.shipLen k) _ (stats_trueP_catalog g hGT k hk)
      · exact Finset.disjoint_of_subset_right (stats_trueP_subset_board g hGT k hk) h2
      · exact stats_trueP_disjoint_hitsSunk g (Stats.sinkPhase g s) hGT
          ⟨h1, h2, h3, h4, h5, h6⟩ k hk hsk

theorem stats_guess_inv (g : Stats.Game) (s : Stats.St) (c : Cell)
    (hinv : Stats.Inv0 g s) : Stats.Inv0 g (Stats.guessF g s c) := by
  obtain ⟨h1, h2, h3, h4, h5, h6⟩ := hinv
  unfold Stats.guessF
  by_cases hc : c ∈ Stats.boardSet g
  · rw [if_pos hc]
    refine ⟨?_, h2, ?_, h4, h5, h6⟩
    · intro a ha
      rcases Finset.mem_union.mp ha with ha2 | ha2
      · exact h1 ha2
      · rw [Finset.mem_singleton.mp ha2]
        exact hc
    · intro k hk hsk
      exact (h3 k hk hsk).trans Finset.subset_union_left
  · rw [if_neg hc]
    refine ⟨h1, ?_, h3, h4, h5, h6⟩
    rw [Finset.disjoint_left]
    intro a ha hab
    rcases Finset.mem_union.mp ha with ha2 | ha2
    · exact Finset.disjoint_left.mp h2 ha2 hab
    · rw [Finset.mem_singleton.mp ha2] at hab
      exact hc hab

theorem stats_init_inv (g : Stats.Game) (hGT : Stats.GT g) :
    Stats.Inv0 g (Stats.initSt g) := by
  refine ⟨Finset.empty_subset _, Finset.disjoint_empty_left _, ?_, ?_, ?_, ?_⟩
  · intro k hk hsk; cases hsk
  · intro k hk hsk; cases hsk
  · intro c hc; cases Finset.not_mem_empty c hc
  · intro k hk _
    exact stats_trueP_catalog g hGT k hk

theorem stats_reach_inv (g : Stats.Game) (hGT : Stats.GT g) :
    ∀ s, Stats.Reach g s → Stats.Inv0 g s := by
  intro s hr
  induction hr with
  | init => exact stats_init_inv g hGT
  | guess s2 c _ ih => exact stats_guess_inv g s2 c ih
  | refresh s2 _ ih => exact stats_update_inv g s2 hGT ih

/-- C10: in both variants, from any state reached by probes answered by
the ground-truth board and refresh calls, every ship not marked sunk
still has its true placement in its conditional candidate list, and in
particular the list is nonempty - the invariant that keeps the sampler's
unbounded retry loop safe.  Proved by induction over the reachable
states: pruning never removes the true placement (it avoids the misses
and the other ships' sunk cells by ground-truth disjointness), and the
Bayesian unique-owner pass can only restrict a ship's list to placements
covering a hit whose true owner is that very ship. -/
theorem true_placement_survives (g : Bayes.Game) (s : Bayes.St) (k : Nat)
    (gS : Stats.Game) (sS : Stats.St) (kS : Nat)
    (hGT : Bayes.GT g) (hr : Bayes.Reach g s) (hk : k < g.numShips)
    (hns : s.sunk k = false)
    (hGTS : Stats.GT gS) (hrS : Stats.Reach gS sS) (hkS : kS < gS.numShips)
    (hnsS : sS.sunk kS = false) :
    (Bayes.CandEntry.place (Bayes.trueP g k) ∈ s.cond k ∧ s.cond k ≠ [])
    ∧ (Stats.trueP gS kS ∈ sS.cond kS ∧ sS.cond kS ≠ []) := by
  have hB := (reach_invR g hGT s hr).1.2.2.2.2.2.1 k hk hns
  have hS := (stats_reach_inv gS hGTS sS hrS).2.2.2.2.2 kS hkS hnsS
  exact ⟨⟨hB, List.ne_nil_of_mem hB⟩, ⟨hS, List.ne_nil_of_mem hS⟩⟩

/-- Witness for the C10 theorem: the concrete game after one hit and one
refresh in each variant. -/
theorem true_placement_survives_witness :
    (Bayes.CandEntry.place (Bayes.trueP g2B 0)
        ∈ (Bayes.afterRefresh g2B (Bayes.guessF g2B (Bayes.initSt g2B) (0, 0))).cond 0
      ∧ (Bayes.afterRefresh g2B (Bayes.guessF g2B (Bayes.initSt g2B) (0, 0))).cond 0 ≠ [])
    ∧ (Stats.trueP g2S 0
        ∈ (Stats.updateOrientations g2S (Stats.guessF g2S (Stats.initSt g2S) (0, 0))).cond 0
      ∧ (Stats.updateOrientations g2S (Stats.guessF g2S (Stats.initSt g2S) (0, 0))).cond 0 ≠ []) :=
  true_placement_survives g2B
    (Bayes.afterRefresh g2B (Bayes.guessF g2B (Bayes.initSt g2B) (0, 0))) 0
    g2S (Stats.updateOrientations g2S (Stats.guessF g2S (Stats.initSt g2S) (0, 0))) 0
    (by unfold Bayes.GT; decide)
    (Bayes.Reach.refresh _ (Bayes.Reach.guess _ _ Bayes.Reach.init))
    (by decide) (by decide)
    (by unfold Stats.GT; decide)
    (Stats.Reach.refresh _ (Stats.Reach.guess _ _ Stats.Reach.init))
    (by decide) (by decide)
